import Mathlib

/-!
Verification of the sasmodels scattering-intensity integrator.

Shallow embedding of src/sasmodels/kernel_iq.c (the polydispersity
integrator KERNEL_NAME, the magnetic helpers set_spins / mag_sld and the
per-q magnetic mixing loop, and the oriented-symmetric view_direct) and of
src/sasmodels/models/multilayer_vesicle.c.

Machine doubles are modelled as exact rationals for the integrator and the
model kernels (the claims under study are about accumulation structure and
exact control flow, and the sliced and unsliced runs perform literally the
same operation sequence), and as real numbers where the code calls sqrt
(set_spins, view_direct).  External collaborators of the core (the model
form factor Iq, form_volume, the optional invalid predicate, libm sqrt,
sph_j1c, the constant M_4PI_3) are parameters of the embedding, exactly as
the spec lists them as external interfaces.
-/

namespace Sas

/-- The mutable parameter block: local_values.vector, a fixed-size vector of
NUM_PARS doubles (kernel_iq.c lines 31-37).  Slot i holds values[2+i] at
initialisation (lines 253-256). -/
abbrev Pars := List ℚ

/-- One polydispersity dimension d of the problem descriptor
(kernel_iq.c lines 17-28 and 304-311): pd_par[d] is the driven slot of the
parameter block, pd_length[d] the grid size, and the functions give
pd_value[pd_offset[d] + i] and pd_weight[pd_offset[d] + i], the
value/weight grid of the dimension inside the shared pool
(pd_value = values + NUM_VALUES, pd_weight = pd_value + num_weights,
lines 270-271). -/
structure PdDim where
  par : ℕ
  length : ℕ
  values : ℕ → ℚ
  weights : ℕ → ℚ

instance : Inhabited PdDim := ⟨⟨0, 0, fun _ => 0, fun _ => 0⟩⟩

/-- num_eval, the total number of voxels in the hypercube: the product of
the pd_length values (spec: num_eval is the product of the lengths; the C
descriptor stores it, well-formedness makes them equal). -/
def numPoints (L : List PdDim) : ℕ := (L.map PdDim.length).prod

/-- Mixed-radix stride of dimension d in an innermost-first dimension list:
pd_stride[0] = 1, pd_stride[d] = pd_stride[d-1] * pd_length[d-1]
(spec invariant; the C descriptor stores the strides, well-formedness makes
them equal to this product of the inner lengths). -/
def strideAt (dims : List PdDim) (d : ℕ) : ℕ := numPoints (dims.take d)

/-- The seed counters i_d = (pd_start / pd_stride[d]) % pd_length[d]
(kernel_iq.c lines 277, 284, 292, 299, 306), for a dimension list given
outermost-first (the order the nested loops are entered).  The stride of
the head dimension is the number of points of the inner nest times the
base multiplier (base is 1 for the whole cube). -/
def seedsO : List PdDim → ℕ → ℕ → List ℕ
  | [], _, _ => []
  | d :: T, base, s => s / (numPoints T * base) % d.length :: seedsO T base s

/-- One level of the polydispersity nest, kernel_iq.c lines 350-356 and
445-475 for the innermost level and the matching while/break/increment
ladder for the outer ones:

while (i_d < n_d) { vector[p_d] = v_d[i_d]; weight_d = w_d[i_d]*weight_out;
  INNER; if (step >= pd_stop) break; ++i_d; }

The state is (parameter block, step, accumulator).  fuel bounds the number
of iterations; every call supplies fuel at least n_d - i_d, so the fuel
never runs out before the loop condition i_d < n_d fails.  innerSeeds are
the counters the inner nest starts from: the seeded values on first entry,
and [] (all zeros, the i_e = 0 resets of lines 450-474) afterwards. -/
def levelIter {α : Type} (stop : ℕ) (d : PdDim)
    (inner : List ℕ → ℚ → Pars × ℕ × α → Pars × ℕ × α)
    (w : ℚ) : ℕ → List ℕ → ℕ → Pars × ℕ × α → Pars × ℕ × α
  | 0, _, _, st => st
  | fuel + 1, innerSeeds, i, st =>
    if i < d.length then
      let st' := inner innerSeeds (d.weights i * w)
        (st.1.set d.par (d.values i), st.2.1, st.2.2)
      if stop ≤ st'.2.1 then st'
      else levelIter stop d inner w fuel [] (i + 1) st'
    else st

/-- The whole nest of polydispersity loops, dimensions listed
outermost-first.  With no dimensions left the body runs once and the step
counter advances (lines 358-445: the accumulation block followed by
++step); this is also the MAX_PD = 0 kernel, whose body runs exactly once
with weight 1.  The body is kept generic so that the same loop can be
instrumented to record its visits. -/
def runNest {α : Type} (stop : ℕ) (body : Pars → ℚ → α → α) :
    List PdDim → List ℕ → ℚ → Pars × ℕ × α → Pars × ℕ × α
  | [], _, w, st => (st.1, st.2.1 + 1, body st.1 w st.2.2)
  | d :: T, seeds, w, st =>
    levelIter stop d (runNest stop body T) w d.length (seeds.drop 1)
      (seeds.headD 0) st

/-- The external model kernel interface (spec section 4.1): the 1-D form
factor CALL_IQ, the volume normalisation CALL_VOLUME, and the optional
INVALID predicate (false for models without one). -/
structure Model where
  Iq : ℚ → Pars → ℚ
  form_volume : Pars → ℚ
  invalid : Pars → Bool

/-- The running accumulator: result[0..nq) plus the scalar pd_norm. -/
structure Acc where
  result : ℕ → ℚ
  pd_norm : ℚ

/-- The accumulation block of the kernel, kernel_iq.c lines 361-443
(1-D CALL_IQ dispatch):

if (!INVALID(table)) { if (weight0 > cutoff) {
  pd_norm += weight0 * CALL_VOLUME(table);
  for (q_index = 0; q_index < nq; q_index++)
    result[q_index] += weight0 * CALL_IQ(q[q_index], table); } } -/
def kernelBody (m : Model) (cutoff : ℚ) (nq : ℕ) (q : ℕ → ℚ)
    (pars : Pars) (weight0 : ℚ) (acc : Acc) : Acc :=
  if m.invalid pars then acc
  else if weight0 > cutoff then
    { pd_norm := acc.pd_norm + weight0 * m.form_volume pars,
      result := fun k =>
        if k < nq then acc.result k + weight0 * m.Iq (q k) pars
        else acc.result k }
  else acc

/-- KERNEL_NAME, kernel_iq.c lines 204-480, 1-D CALL_IQ dispatch: fill
local_values from values[2..2+NUM_PARS) (lines 253-256), read or reset
pd_norm and result[0..nq) according to pd_start (lines 260-266), seed the
loop counters (lines 275-311), run the nest from step = pd_start (lines
314-475), and store the updated norm in result[nq] (line 479).  dims is
listed innermost-first as in the C descriptor arrays (dimension 0 is the
fastest varying), so the nest runs on dims.reverse. -/
def KERNEL_NAME (m : Model) (nq : ℕ) (pd_start pd_stop : ℕ)
    (dims : List PdDim) (values0 : Pars) (q : ℕ → ℚ) (result : ℕ → ℚ)
    (cutoff : ℚ) : ℕ → ℚ :=
  let pd_norm : ℚ := if pd_start = 0 then 0 else result nq
  let result0 : ℕ → ℚ := fun k =>
    if pd_start = 0 ∧ k < nq then 0 else result k
  let out := runNest pd_stop (kernelBody m cutoff nq q) dims.reverse
    (seedsO dims.reverse 1 pd_start) 1 (values0, pd_start, ⟨result0, pd_norm⟩)
  fun k => if k = nq then out.2.2.pd_norm else out.2.2.result k

/-- Closed form of the parameter block at cube point t (dims listed
innermost-first): every dimension has overwritten its slot with its value
at its mixed-radix digit of t, slot pd_par[d] := pd_value[d][i_d] with
i_d = (t / pd_stride[d]) % pd_length[d]. -/
def parsAt : List PdDim → ℕ → Pars → Pars
  | [], _, pars => pars
  | d :: rest, t, pars =>
    (parsAt rest (t / d.length) pars).set d.par (d.values (t % d.length))

/-- Closed form of the cumulative weight at cube point t: the product of
the per-dimension weights at the mixed-radix digits of t. -/
def weightAt : List PdDim → ℕ → ℚ
  | [], _ => 1
  | d :: rest, t => d.weights (t % d.length) * weightAt rest (t / d.length)

/-- The closed forms of parameter block and weight used by the nest lemma,
for an outermost-first dimension list: each level overwrites its slot and
multiplies its weight in loop-entry order. -/
def nestPars : List PdDim → ℕ → Pars → Pars
  | [], _, pars => pars
  | d :: T, t, pars =>
    nestPars T t (pars.set d.par (d.values (t / numPoints T % d.length)))

def nestWeight : List PdDim → ℕ → ℚ → ℚ
  | [], _, w => w
  | d :: T, t, w =>
    nestWeight T t (d.weights (t / numPoints T % d.length) * w)

/-- The state the kernel starts accumulating from: zeroed result and norm
when pd_start = 0, the caller's previous buffer and result[nq] otherwise
(kernel_iq.c lines 260-266). -/
def initAcc (nq : ℕ) (start : ℕ) (res : ℕ → ℚ) : Acc :=
  { result := fun k => if start = 0 ∧ k < nq then 0 else res k,
    pd_norm := if start = 0 then 0 else res nq }

/-- The contribution of cube point t to the accumulator. -/
def stepContrib (m : Model) (cutoff : ℚ) (nq : ℕ) (q : ℕ → ℚ)
    (dims : List PdDim) (values0 : Pars) (acc : Acc) (t : ℕ) : Acc :=
  kernelBody m cutoff nq q (parsAt dims t values0) (weightAt dims t) acc

/-- The nest instrumented to record every visit: the same runNest call as
KERNEL_NAME, with a body that appends the (parameter block, weight) pair
of each executed accumulation block. -/
def nestTrace (stop : ℕ) (dims : List PdDim) (start : ℕ) (pars0 : Pars) :
    List (Pars × ℚ) :=
  (runNest stop (fun p w acc => acc ++ [(p, w)]) dims.reverse
    (seedsO dims.reverse 1 start) 1 (pars0, start, [])).2.2

/-- Consecutive slices (pd_start, pd_stop) = (s_j, s_j+1), each invocation
accumulating into the buffer the previous one produced. -/
def runSlices (m : Model) (nq : ℕ) (dims : List PdDim) (values0 : Pars)
    (q : ℕ → ℚ) (cutoff : ℚ) : List ℕ → (ℕ → ℚ) → (ℕ → ℚ)
  | s0 :: s1 :: rest, res =>
    runSlices m nq dims values0 q cutoff (s1 :: rest)
      (KERNEL_NAME m nq s0 s1 dims values0 q res cutoff)
  | _, res => res

/-- The step at which the nest on L, entered at step s, stops on its own:
the end of the current block of the subcube, capped by pd_stop. -/
def blockEnd (stop : ℕ) (L : List PdDim) (s : ℕ) : ℕ :=
  min stop ((s / numPoints L + 1) * numPoints L)

/-- The fold of the body over the visited steps of the nest on L. -/
def nestFold {α : Type} (body : Pars → ℚ → α → α) (L : List PdDim)
    (pars : Pars) (w : ℚ) (s e : ℕ) (acc : α) : α :=
  (List.range' s (e - s)).foldl
    (fun a t => body (nestPars L t pars) (nestWeight L t w) a) acc

theorem numPoints_nil : numPoints [] = 1 := rfl

theorem numPoints_cons (d : PdDim) (T : List PdDim) :
    numPoints (d :: T) = d.length * numPoints T := by
  simp [numPoints]

theorem numPoints_append (M N : List PdDim) :
    numPoints (M ++ N) = numPoints M * numPoints N := by
  simp [numPoints]

theorem numPoints_reverse (L : List PdDim) :
    numPoints L.reverse = numPoints L := by
  simp [numPoints, List.prod_reverse]

theorem numPoints_pos {L : List PdDim} (h : ∀ d ∈ L, 0 < d.length) :
    0 < numPoints L := by
  refine List.prod_pos ?_
  intro x hx
  rcases List.mem_map.mp hx with ⟨d, hd, rfl⟩
  exact h d hd

theorem strideAt_zero (dims : List PdDim) : strideAt dims 0 = 1 := rfl

theorem strideAt_cons_succ (d : PdDim) (rest : List PdDim) (j : ℕ) :
    strideAt (d :: rest) (j + 1) = d.length * strideAt rest j := by
  simp [strideAt, numPoints]

theorem lt_block_self (s : ℕ) {S : ℕ} (hS : 0 < S) : s < (s / S + 1) * S := by
  have h1 := Nat.div_add_mod s S
  have h2 := Nat.mod_lt s hS
  calc s = S * (s / S) + s % S := h1.symm
    _ < S * (s / S) + S := by omega
    _ = (s / S + 1) * S := by ring

theorem div_eq_in_block {S s t : ℕ} (h1 : s ≤ t) (h2 : t < (s / S + 1) * S) :
    t / S = s / S :=
  Nat.div_eq_of_lt_le (le_trans (Nat.div_mul_le_self s S) h1) h2

/-- The end of the inner block is at most the end of the outer block. -/
theorem block_le_block (s S : ℕ) {n : ℕ} (hn : 0 < n) :
    (s / S + 1) * S ≤ (s / (n * S) + 1) * (n * S) := by
  rcases Nat.eq_zero_or_pos S with hS | hS
  · subst hS; simp
  have hdd : s / (n * S) = s / S / n := by
    rw [Nat.div_div_eq_div_mul, Nat.mul_comm]
  have h1 := Nat.div_add_mod (s / S) n
  have h2 := Nat.mod_lt (s / S) hn
  have key : s / S + 1 ≤ (s / (n * S) + 1) * n := by
    rw [hdd]
    nlinarith [h1, h2]
  calc (s / S + 1) * S ≤ ((s / (n * S) + 1) * n) * S :=
        Nat.mul_le_mul_right S key
    _ = (s / (n * S) + 1) * (n * S) := by ring

theorem nestPars_append (M : List PdDim) (x : PdDim) (t : ℕ) (pars : Pars) :
    nestPars (M ++ [x]) t pars =
      (nestPars M (t / x.length) pars).set x.par (x.values (t % x.length)) := by
  induction M generalizing pars with
  | nil => simp [nestPars, numPoints_nil]
  | cons m M ih =>
    have hnp : numPoints (M ++ [x]) = numPoints M * x.length := by
      rw [numPoints_append]; simp [numPoints]
    have hdig : t / numPoints (M ++ [x]) % m.length
        = t / x.length / numPoints M % m.length := by
      rw [hnp, Nat.mul_comm, ← Nat.div_div_eq_div_mul]
    have step : nestPars ((m :: M) ++ [x]) t pars
        = nestPars (M ++ [x]) t
          (pars.set m.par (m.values (t / numPoints (M ++ [x]) % m.length))) := rfl
    rw [step, ih, hdig]
    rfl

theorem nestWeight_append (M : List PdDim) (x : PdDim) (t : ℕ) (w : ℚ) :
    nestWeight (M ++ [x]) t w =
      x.weights (t % x.length) * nestWeight M (t / x.length) w := by
  induction M generalizing w with
  | nil => simp [nestWeight, numPoints_nil]
  | cons m M ih =>
    have hnp : numPoints (M ++ [x]) = numPoints M * x.length := by
      rw [numPoints_append]; simp [numPoints]
    have hdig : t / numPoints (M ++ [x]) % m.length
        = t / x.length / numPoints M % m.length := by
      rw [hnp, Nat.mul_comm, ← Nat.div_div_eq_div_mul]
    have step : nestWeight ((m :: M) ++ [x]) t w
        = nestWeight (M ++ [x]) t
          (m.weights (t / numPoints (M ++ [x]) % m.length) * w) := rfl
    rw [step, ih, hdig]
    rfl

/-- The reversal used by the kernel agrees with the innermost-first closed
form of the parameter block. -/
theorem nestPars_reverse (dims : List PdDim) (t : ℕ) (pars : Pars) :
    nestPars dims.reverse t pars = parsAt dims t pars := by
  induction dims generalizing t pars with
  | nil => rfl
  | cons d rest ih =>
    simp only [List.reverse_cons, nestPars_append, parsAt, ih]

theorem nestWeight_reverse (dims : List PdDim) (t : ℕ) :
    nestWeight dims.reverse t 1 = weightAt dims t := by
  have key : ∀ (ds : List PdDim) (u : ℕ) (w : ℚ),
      nestWeight ds.reverse u w = weightAt ds u * w := by
    intro ds
    induction ds with
    | nil => intro u w; simp [nestWeight, weightAt]
    | cons d rest ih =>
      intro u w
      simp only [List.reverse_cons, nestWeight_append, ih, weightAt]
      ring
  rw [key]; ring

theorem seedsO_append (M : List PdDim) (x : PdDim) (base s : ℕ) :
    seedsO (M ++ [x]) base s =
      seedsO M (x.length * base) s ++ [s / base % x.length] := by
  induction M with
  | nil => simp [seedsO, numPoints_nil]
  | cons m M ih =>
    have hnp : numPoints (M ++ [x]) * base = numPoints M * (x.length * base) := by
      rw [numPoints_append]; simp [numPoints]; ring
    have step : seedsO ((m :: M) ++ [x]) base s
        = s / (numPoints (M ++ [x]) * base) % m.length
          :: seedsO (M ++ [x]) base s := rfl
    rw [step, ih, hnp]
    rfl

/-- Entering an inner nest at a step divisible by its point count seeds
every counter at zero (the explicit i_e = 0 resets of the C code). -/
theorem seedsO_zeros (T : List PdDim) (base s : ℕ)
    (h : numPoints T * base ∣ s) :
    seedsO T base s = List.replicate T.length 0 := by
  induction T with
  | nil => rfl
  | cons d T ih =>
    have hnp : numPoints (d :: T) = d.length * numPoints T := numPoints_cons d T
    have hdvd : numPoints T * base ∣ s := by
      refine dvd_trans ?_ h
      rw [hnp]
      exact ⟨d.length, by ring⟩
    have hhead : s / (numPoints T * base) % d.length = 0 := by
      rcases Nat.eq_zero_or_pos (numPoints T * base) with h0 | h0
      · rw [h0, Nat.div_zero, Nat.zero_mod]
      · rcases h with ⟨k, hk⟩
        have : s / (numPoints T * base) = d.length * k := by
          rw [hk, hnp]
          rw [show d.length * numPoints T * base * k
              = (d.length * k) * (numPoints T * base) by ring]
          exact Nat.mul_div_cancel _ h0
        rw [this, Nat.mul_comm, Nat.mul_mod_left]
    simp only [seedsO, hhead, ih hdvd, List.length_cons, List.replicate_succ]

/-- Parameter blocks that agree outside the slots driven by L. -/
def SameOutside (L : List PdDim) (p p' : Pars) : Prop :=
  p.length = p'.length ∧ ∀ k, k ∉ L.map PdDim.par → p[k]? = p'[k]?

theorem nestPars_length (L : List PdDim) (t : ℕ) (p : Pars) :
    (nestPars L t p).length = p.length := by
  induction L generalizing p with
  | nil => rfl
  | cons d T ih => simp [nestPars, ih]

theorem nestPars_congr_outside {L : List PdDim} {p p' : Pars}
    (h : SameOutside L p p') (t : ℕ) : nestPars L t p = nestPars L t p' := by
  induction L generalizing p p' with
  | nil =>
    exact List.ext_getElem? fun k => h.2 k (by simp)
  | cons d T ih =>
    have hlen := h.1
    simp only [nestPars]
    refine ih ⟨by simp [hlen], ?_⟩
    intro k hk
    by_cases hkd : k = d.par
    · rw [hkd]
      rcases Nat.lt_or_ge d.par p.length with hlt | hge
      · rw [List.getElem?_set_eq_of_lt _ hlt,
          List.getElem?_set_eq_of_lt _ (h.1 ▸ hlt)]
      · rw [List.getElem?_eq_none (by rw [List.length_set]; omega),
          List.getElem?_eq_none (by rw [List.length_set]; omega)]
    · rw [List.getElem?_set_ne (by omega), List.getElem?_set_ne (by omega)]
      refine h.2 k ?_
      intro hmem
      simp only [List.map_cons, List.mem_cons] at hmem
      rcases hmem with hmem | hmem
      · exact hkd hmem
      · exact hk (by simpa using hmem)

theorem sameOutside_nestPars (L : List PdDim) (t : ℕ) (p : Pars) :
    SameOutside L (nestPars L t p) p := by
  induction L generalizing p with
  | nil => exact ⟨rfl, fun k _ => rfl⟩
  | cons d T ih =>
    refine ⟨by simp [nestPars, nestPars_length], ?_⟩
    intro k hk
    simp only [List.map_cons, List.mem_cons] at hk
    push_neg at hk
    have h1 := (ih (p.set d.par (d.values (t / numPoints T % d.length)))).2 k hk.2
    simp only [nestPars]
    rw [h1, List.getElem?_set_ne (fun hh => hk.1 hh.symm)]

theorem levelIter_exit {α : Type} (stop : ℕ) (d : PdDim)
    (inner : List ℕ → ℚ → Pars × ℕ × α → Pars × ℕ × α) (w : ℚ)
    {i : ℕ} (h : d.length ≤ i) (fuel : ℕ) (seeds : List ℕ)
    (st : Pars × ℕ × α) : levelIter stop d inner w fuel seeds i st = st := by
  cases fuel with
  | zero => rfl
  | succ fuel => simp [levelIter, Nat.not_lt.2 h]

theorem levelIter_congr_inner {α : Type} (stop : ℕ) (d : PdDim)
    {inn : List ℕ → ℚ → Pars × ℕ × α → Pars × ℕ × α} (w : ℚ)
    {s1 s2 : List ℕ} (h : ∀ w' st, inn s1 w' st = inn s2 w' st) :
    ∀ (fuel i : ℕ) (st : Pars × ℕ × α),
      levelIter stop d inn w fuel s1 i st = levelIter stop d inn w fuel s2 i st := by
  intro fuel
  induction fuel with
  | zero => intro i st; rfl
  | succ fuel ihf =>
    intro i st
    simp only [levelIter]
    by_cases hi : i < d.length
    · rw [if_pos hi, if_pos hi, h]
    · rw [if_neg hi, if_neg hi]

/-- Empty seeds behave exactly like all-zero counters. -/
theorem runNest_nil_seeds {α : Type} (stop : ℕ) (body : Pars → ℚ → α → α) :
    ∀ (T : List PdDim) (w : ℚ) (st : Pars × ℕ × α),
      runNest stop body T [] w st
        = runNest stop body T (List.replicate T.length 0) w st := by
  intro T
  induction T with
  | nil => intro w st; rfl
  | cons d T ih =>
    intro w st
    show levelIter stop d (runNest stop body T) w d.length [] 0 st
      = levelIter stop d (runNest stop body T) w d.length
        ((List.replicate (T.length + 1) 0).drop 1)
        ((List.replicate (T.length + 1) 0).headD 0) st
    rw [List.replicate_succ]
    show levelIter stop d (runNest stop body T) w d.length [] 0 st
      = levelIter stop d (runNest stop body T) w d.length
        (List.replicate T.length 0) 0 st
    exact levelIter_congr_inner stop d w (fun w' st' => ih w' st') d.length 0 st

theorem nestFold_append {α : Type} (body : Pars → ℚ → α → α) (L : List PdDim)
    (pars : Pars) (w : ℚ) {s e e' : ℕ} (h1 : s ≤ e) (h2 : e ≤ e') (acc : α) :
    nestFold body L pars w e e' (nestFold body L pars w s e acc)
      = nestFold body L pars w s e' acc := by
  unfold nestFold
  rw [← List.foldl_append]
  have hr := List.range'_append_1 s (e - s) (e' - e)
  rw [show s + (e - s) = e by omega] at hr
  rw [hr, show e' - e + (e - s) = e' - s by omega]

/-- One level of the nest, entered at step s with its counter at the digit
of s, runs the body at every step from s up to the end of its block of the
(d :: T) subcube or pd_stop, whichever is first. -/
theorem levelIter_eq {α : Type} (stop : ℕ) (body : Pars → ℚ → α → α)
    (d : PdDim) (T : List PdDim) (hn : 0 < d.length) (hS : 0 < numPoints T)
    (ih : ∀ (s : ℕ) (pars : Pars) (acc : α) (w : ℚ), s < stop →
      runNest stop body T (seedsO T 1 s) w (pars, s, acc) =
        (nestPars T (blockEnd stop T s - 1) pars, blockEnd stop T s,
         nestFold body T pars w s (blockEnd stop T s) acc)) :
    ∀ (fuel i s : ℕ) (pars : Pars) (acc : α) (w : ℚ) (innerSeeds : List ℕ),
      d.length - i ≤ fuel →
      i = s / numPoints T % d.length →
      s < stop →
      (∀ (w' : ℚ) (st : Pars × ℕ × α),
        runNest stop body T innerSeeds w' st
          = runNest stop body T (seedsO T 1 s) w' st) →
      levelIter stop d (runNest stop body T) w fuel innerSeeds i
          (pars, s, acc) =
        (nestPars (d :: T) (blockEnd stop (d :: T) s - 1) pars,
         blockEnd stop (d :: T) s,
         nestFold body (d :: T) pars w s (blockEnd stop (d :: T) s) acc) := by
  intro fuel
  induction fuel with
  | zero =>
    intro i s pars acc w innerSeeds hfuel hi hs hseeds
    have : s / numPoints T % d.length < d.length := Nat.mod_lt _ hn
    omega
  | succ fuel ihf =>
    intro i s pars acc w innerSeeds hfuel hi hs hseeds
    have hi' : i < d.length := by
      have : s / numPoints T % d.length < d.length := Nat.mod_lt _ hn
      omega
    have hunf : levelIter stop d (runNest stop body T) w (fuel + 1)
        innerSeeds i (pars, s, acc)
      = if i < d.length then
          (if stop ≤ (runNest stop body T innerSeeds (d.weights i * w)
              (pars.set d.par (d.values i), s, acc)).2.1
           then runNest stop body T innerSeeds (d.weights i * w)
              (pars.set d.par (d.values i), s, acc)
           else levelIter stop d (runNest stop body T) w fuel [] (i + 1)
              (runNest stop body T innerSeeds (d.weights i * w)
                (pars.set d.par (d.values i), s, acc)))
        else (pars, s, acc) := rfl
    rw [hunf, if_pos hi', hseeds,
      ih s (pars.set d.par (d.values i)) acc (d.weights i * w) hs]
    have hN : numPoints (d :: T) = d.length * numPoints T := numPoints_cons d T
    have hNpos : 0 < numPoints (d :: T) := by rw [hN]; positivity
    have hB1 : s < (s / numPoints T + 1) * numPoints T := lt_block_self s hS
    have he1 : blockEnd stop T s
        = min stop ((s / numPoints T + 1) * numPoints T) := rfl
    have hse1 : s < blockEnd stop T s := by omega
    have he1B : blockEnd stop T s ≤ (s / numPoints T + 1) * numPoints T := by
      omega
    have hBB : (s / numPoints T + 1) * numPoints T
        ≤ (s / numPoints (d :: T) + 1) * numPoints (d :: T) := by
      rw [hN]; exact block_le_block s (numPoints T) hn
    have hdig : ∀ t, s ≤ t → t < (s / numPoints T + 1) * numPoints T →
        t / numPoints T % d.length = i := by
      intro t h1 h2
      rw [div_eq_in_block h1 h2, ← hi]
    have hcp : ∀ t, s ≤ t → t < (s / numPoints T + 1) * numPoints T →
        nestPars T t (pars.set d.par (d.values i)) = nestPars (d :: T) t pars := by
      intro t h1 h2
      show _ = nestPars T t (pars.set d.par (d.values (t / numPoints T % d.length)))
      rw [hdig t h1 h2]
    have hcw : ∀ t, s ≤ t → t < (s / numPoints T + 1) * numPoints T →
        nestWeight T t (d.weights i * w) = nestWeight (d :: T) t w := by
      intro t h1 h2
      show _ = nestWeight T t (d.weights (t / numPoints T % d.length) * w)
      rw [hdig t h1 h2]
    have hfold : ∀ e, e ≤ (s / numPoints T + 1) * numPoints T →
        nestFold body T (pars.set d.par (d.values i)) (d.weights i * w) s e acc
          = nestFold body (d :: T) pars w s e acc := by
      intro e he
      unfold nestFold
      refine List.foldl_ext _ _ acc ?_
      intro a t ht
      rw [List.mem_range'_1] at ht
      have h1 : s ≤ t := ht.1
      have h2 : t < (s / numPoints T + 1) * numPoints T := by omega
      rw [hcp t h1 h2, hcw t h1 h2]
    by_cases hstop : stop ≤ blockEnd stop T s
    · -- the inner nest already reached pd_stop: the level loop breaks
      rw [if_pos hstop]
      have hes : blockEnd stop T s = stop := by omega
      have hE : blockEnd stop (d :: T) s = stop := by
        have : blockEnd stop (d :: T) s
            = min stop ((s / numPoints (d :: T) + 1) * numPoints (d :: T)) := rfl
        omega
      have hb1 : s ≤ blockEnd stop T s - 1 := by omega
      have hb2 : blockEnd stop T s - 1 < (s / numPoints T + 1) * numPoints T := by
        omega
      rw [hcp _ hb1 hb2, hfold _ he1B, hes, hE]
    · -- the block of this level value is exhausted before pd_stop
      rw [if_neg hstop]
      have heB : blockEnd stop T s = (s / numPoints T + 1) * numPoints T := by
        omega
      have hestop : blockEnd stop T s < stop := by omega
      have hdvd : numPoints T * 1 ∣ blockEnd stop T s := by
        rw [heB, Nat.mul_one]
        exact ⟨s / numPoints T + 1, by ring⟩
      have hseeds0 : ∀ (w' : ℚ) (st : Pars × ℕ × α),
          runNest stop body T [] w' st
            = runNest stop body T (seedsO T 1 (blockEnd stop T s)) w' st := by
        intro w' st
        rw [seedsO_zeros T 1 _ hdvd]
        exact runNest_nil_seeds stop body T w' st
      have hb1 : s ≤ blockEnd stop T s - 1 := by omega
      have hb2 : blockEnd stop T s - 1 < (s / numPoints T + 1) * numPoints T := by
        omega
      rw [hcp _ hb1 hb2, hfold _ he1B]
      have hq := Nat.div_add_mod (s / numPoints T) d.length
      have hqmod : s / numPoints T % d.length = i := hi.symm
      have hdivN : s / numPoints (d :: T) = s / numPoints T / d.length := by
        rw [hN, Nat.mul_comm, ← Nat.div_div_eq_div_mul]
      have hB1S : blockEnd stop T s / numPoints T = s / numPoints T + 1 := by
        rw [heB]
        exact Nat.mul_div_cancel _ hS
      by_cases hin : i + 1 < d.length
      · -- the level counter advances and the loop continues
        have hi2 : i + 1 = blockEnd stop T s / numPoints T % d.length := by
          rw [hB1S]
          have : (s / numPoints T + 1) % d.length
              = (d.length * (s / numPoints T / d.length) + (i + 1)) % d.length := by
            congr 1
            omega
          rw [this, Nat.mul_add_mod, Nat.mod_eq_of_lt hin]
        have := ihf (i + 1) (blockEnd stop T s)
          (nestPars (d :: T) (blockEnd stop T s - 1) pars)
          (nestFold body (d :: T) pars w s (blockEnd stop T s) acc)
          w [] (by omega) hi2 hestop hseeds0
        rw [this]
        have hEeq : blockEnd stop (d :: T) (blockEnd stop T s)
            = blockEnd stop (d :: T) s := by
          have hdivB : blockEnd stop T s / numPoints (d :: T)
              = s / numPoints (d :: T) := by
            rw [hN, Nat.mul_comm (d.length), ← Nat.div_div_eq_div_mul,
              ← Nat.div_div_eq_div_mul, hB1S]
            rw [show s / numPoints T + 1
                = d.length * (s / numPoints T / d.length) + (i + 1) by omega]
            rw [Nat.mul_add_div hn, Nat.div_eq_of_lt hin]
            omega
          generalize hb : blockEnd stop T s = b1 at hdivB ⊢
          unfold blockEnd
          rw [hdivB]
        rw [hEeq]
        have hso : SameOutside (d :: T)
            (nestPars (d :: T) (blockEnd stop T s - 1) pars) pars :=
          sameOutside_nestPars (d :: T) _ pars
        have hcongr : ∀ t, nestPars (d :: T) t
            (nestPars (d :: T) (blockEnd stop T s - 1) pars)
              = nestPars (d :: T) t pars := by
          intro t
          exact nestPars_congr_outside hso t
        rw [hcongr]
        have hfold2 : nestFold body (d :: T)
            (nestPars (d :: T) (blockEnd stop T s - 1) pars) w
            (blockEnd stop T s) (blockEnd stop (d :: T) s)
            (nestFold body (d :: T) pars w s (blockEnd stop T s) acc)
          = nestFold body (d :: T) pars w s (blockEnd stop (d :: T) s) acc := by
          have hcongr2 : nestFold body (d :: T)
              (nestPars (d :: T) (blockEnd stop T s - 1) pars) w
              (blockEnd stop T s) (blockEnd stop (d :: T) s)
              (nestFold body (d :: T) pars w s (blockEnd stop T s) acc)
            = nestFold body (d :: T) pars w
              (blockEnd stop T s) (blockEnd stop (d :: T) s)
              (nestFold body (d :: T) pars w s (blockEnd stop T s) acc) := by
            unfold nestFold
            refine List.foldl_ext _ _ _ ?_
            intro a t _
            rw [hcongr]
          rw [hcongr2]
          refine nestFold_append body (d :: T) pars w (by omega) ?_ acc
          have : blockEnd stop (d :: T) s
              = min stop ((s / numPoints (d :: T) + 1) * numPoints (d :: T)) := rfl
          omega
        rw [hfold2]
      · -- the level counter is exhausted: the loop exits on its own
        have hieq : i + 1 = d.length := by omega
        rw [levelIter_exit stop d (runNest stop body T) w (by omega) fuel []]
        have hEB : (s / numPoints (d :: T) + 1) * numPoints (d :: T)
            = (s / numPoints T + 1) * numPoints T := by
          rw [hdivN, hN]
          have hx : d.length * (s / numPoints T / d.length + 1)
              = d.length * (s / numPoints T / d.length) + d.length := by ring
          have : s / numPoints T + 1 = d.length * (s / numPoints T / d.length + 1) := by
            omega
          calc (s / numPoints T / d.length + 1) * (d.length * numPoints T)
              = (d.length * (s / numPoints T / d.length + 1)) * numPoints T := by
                ring
            _ = (s / numPoints T + 1) * numPoints T := by rw [← this]
        have hEe1 : blockEnd stop (d :: T) s = blockEnd stop T s := by
          unfold blockEnd
          rw [hEB]
        rw [hEe1]

/-- The nest on L, entered at step s with its counters seeded from s, runs
the body at every step from s up to the end of the current block of the
subcube or pd_stop, whichever is first, in increasing step order, with the
closed-form parameter block and cumulative weight at each step. -/
theorem runNest_eq {α : Type} (stop : ℕ) (body : Pars → ℚ → α → α) :
    ∀ (L : List PdDim), (∀ d ∈ L, 0 < d.length) →
    ∀ (s : ℕ) (pars : Pars) (acc : α) (w : ℚ), s < stop →
    runNest stop body L (seedsO L 1 s) w (pars, s, acc) =
      (nestPars L (blockEnd stop L s - 1) pars, blockEnd stop L s,
       nestFold body L pars w s (blockEnd stop L s) acc) := by
  intro L
  induction L with
  | nil =>
    intro _ s pars acc w hs
    have hE : blockEnd stop [] s = s + 1 := by
      unfold blockEnd
      rw [numPoints_nil]
      omega
    rw [hE]
    show (pars, s + 1, body pars w acc)
      = (nestPars [] s pars, s + 1,
         (List.range' s (s + 1 - s)).foldl
           (fun a t => body (nestPars [] t pars) (nestWeight [] t w) a) acc)
    rw [show s + 1 - s = 1 by omega]
    rfl
  | cons d T ih =>
    intro hWF s pars acc w hs
    have hn : 0 < d.length := hWF d (List.mem_cons_self d T)
    have hS : 0 < numPoints T := by
      refine numPoints_pos ?_
      intro x hx
      exact hWF x (List.mem_cons_of_mem d hx)
    show levelIter stop d (runNest stop body T) w d.length
        ((seedsO (d :: T) 1 s).drop 1) ((seedsO (d :: T) 1 s).headD 0)
        (pars, s, acc) = _
    have hdrop : (seedsO (d :: T) 1 s).drop 1 = seedsO T 1 s := rfl
    have hhead : (seedsO (d :: T) 1 s).headD 0
        = s / numPoints T % d.length := by
      show s / (numPoints T * 1) % d.length = _
      rw [Nat.mul_one]
    rw [hdrop, hhead]
    exact levelIter_eq stop body d T hn hS
      (fun s' pars' acc' w' hs' => ih (fun x hx => hWF x (List.mem_cons_of_mem d hx))
        s' pars' acc' w' hs')
      d.length (s / numPoints T % d.length) s pars acc w (seedsO T 1 s)
      (by omega) rfl hs (fun w' st => rfl)

/-- When pd_stop is at most s + 1, the nest entered at step s still runs
the body exactly once, at the cube point of step s, because every level
checks the termination condition only after the body has run and the step
counter has advanced. -/
theorem runNest_once {α : Type} (stop : ℕ) (body : Pars → ℚ → α → α) :
    ∀ (L : List PdDim), (∀ d ∈ L, 0 < d.length) →
    ∀ (s : ℕ) (pars : Pars) (acc : α) (w : ℚ), stop ≤ s + 1 →
    runNest stop body L (seedsO L 1 s) w (pars, s, acc) =
      (nestPars L s pars, s + 1,
       body (nestPars L s pars) (nestWeight L s w) acc) := by
  intro L
  induction L with
  | nil => intro _ s pars acc w _; rfl
  | cons d T ih =>
    intro hWF s pars acc w hstop
    have hn : 0 < d.length := hWF d (List.mem_cons_self d T)
    have hi' : s / numPoints T % d.length < d.length := Nat.mod_lt _ hn
    obtain ⟨n', hn'⟩ : ∃ n', d.length = n' + 1 := ⟨d.length - 1, by omega⟩
    show levelIter stop d (runNest stop body T) w d.length
        ((seedsO (d :: T) 1 s).drop 1) ((seedsO (d :: T) 1 s).headD 0)
        (pars, s, acc) = _
    have hdrop : (seedsO (d :: T) 1 s).drop 1 = seedsO T 1 s := rfl
    have hhead : (seedsO (d :: T) 1 s).headD 0
        = s / numPoints T % d.length := by
      show s / (numPoints T * 1) % d.length = _
      rw [Nat.mul_one]
    rw [hdrop, hhead]
    generalize hg : s / numPoints T % d.length = i0
    have hi0' : i0 < d.length := hg ▸ hi'
    have hfuel : levelIter stop d (runNest stop body T) w d.length
        (seedsO T 1 s) i0 (pars, s, acc)
      = levelIter stop d (runNest stop body T) w (n' + 1)
        (seedsO T 1 s) i0 (pars, s, acc) := by rw [hn']
    have hunf : levelIter stop d (runNest stop body T) w (n' + 1)
        (seedsO T 1 s) i0 (pars, s, acc)
      = if i0 < d.length then
          (if stop ≤ (runNest stop body T (seedsO T 1 s) (d.weights i0 * w)
              (pars.set d.par (d.values i0), s, acc)).2.1
           then runNest stop body T (seedsO T 1 s) (d.weights i0 * w)
              (pars.set d.par (d.values i0), s, acc)
           else levelIter stop d (runNest stop body T) w n' [] (i0 + 1)
              (runNest stop body T (seedsO T 1 s) (d.weights i0 * w)
                (pars.set d.par (d.values i0), s, acc)))
        else (pars, s, acc) := rfl
    rw [hfuel, hunf, if_pos hi0',
      ih (fun x hx => hWF x (List.mem_cons_of_mem d hx)) s _ acc _ hstop]
    rw [if_pos hstop, ← hg]
    rfl

/-- The kernel as a fold of the per-point contribution over the half-open
step range [pd_start, pd_stop), starting from the zeroed or resumed
accumulator, with result[nq] receiving the final norm. -/
theorem kernel_eq_fold (m : Model) (nq : ℕ) {start stop : ℕ}
    (dims : List PdDim) (values0 : Pars) (q : ℕ → ℚ) (res : ℕ → ℚ)
    (cutoff : ℚ) (hWF : ∀ d ∈ dims, 0 < d.length)
    (h1 : start < stop) (h2 : stop ≤ numPoints dims) :
    KERNEL_NAME m nq start stop dims values0 q res cutoff = fun k =>
      if k = nq then
        ((List.range' start (stop - start)).foldl
          (stepContrib m cutoff nq q dims values0)
          (initAcc nq start res)).pd_norm
      else
        ((List.range' start (stop - start)).foldl
          (stepContrib m cutoff nq q dims values0)
          (initAcc nq start res)).result k := by
  have hWFr : ∀ d ∈ dims.reverse, 0 < d.length := by
    intro d hd
    exact hWF d (List.mem_reverse.mp hd)
  have hNP : numPoints dims.reverse = numPoints dims := numPoints_reverse dims
  have hrun := runNest_eq stop (kernelBody m cutoff nq q) dims.reverse hWFr
    start values0 (initAcc nq start res) 1 h1
  have hE : blockEnd stop dims.reverse start = stop := by
    unfold blockEnd
    rw [hNP, Nat.div_eq_of_lt (by omega)]
    omega
  rw [hE] at hrun
  show (fun k => if k = nq then
      (runNest stop (kernelBody m cutoff nq q) dims.reverse
        (seedsO dims.reverse 1 start) 1
        (values0, start, initAcc nq start res)).2.2.pd_norm
    else
      (runNest stop (kernelBody m cutoff nq q) dims.reverse
        (seedsO dims.reverse 1 start) 1
        (values0, start, initAcc nq start res)).2.2.result k) = _
  rw [hrun]
  have hfold : nestFold (kernelBody m cutoff nq q) dims.reverse values0 1
      start stop (initAcc nq start res)
    = (List.range' start (stop - start)).foldl
      (stepContrib m cutoff nq q dims values0) (initAcc nq start res) := by
    unfold nestFold
    refine List.foldl_ext _ _ _ ?_
    intro a t _
    rw [nestPars_reverse, nestWeight_reverse]
    rfl
  rw [hfold]

/-- The accumulation loop only writes result entries below nq. -/
theorem fold_result_high (m : Model) (cutoff : ℚ) (nq : ℕ) (q : ℕ → ℚ)
    (dims : List PdDim) (values0 : Pars) :
    ∀ (l : List ℕ) (acc : Acc) (k : ℕ), nq ≤ k →
      ((l.foldl (stepContrib m cutoff nq q dims values0) acc).result k
        = acc.result k) := by
  intro l
  induction l with
  | nil => intro acc k _; rfl
  | cons t l ih =>
    intro acc k hk
    show ((l.foldl _ (stepContrib m cutoff nq q dims values0 acc t)).result k = _)
    rw [ih _ k hk]
    unfold stepContrib kernelBody
    split
    · rfl
    · split
      · simp only
        rw [if_neg (by omega)]
      · rfl

/-- Accumulators agreeing on the norm and on every entry below nq keep
agreeing there through the accumulation loop. -/
theorem fold_congr_low (m : Model) (cutoff : ℚ) (nq : ℕ) (q : ℕ → ℚ)
    (dims : List PdDim) (values0 : Pars) :
    ∀ (l : List ℕ) (acc acc' : Acc),
      acc.pd_norm = acc'.pd_norm → (∀ k, k < nq → acc.result k = acc'.result k) →
      (l.foldl (stepContrib m cutoff nq q dims values0) acc).pd_norm
        = (l.foldl (stepContrib m cutoff nq q dims values0) acc').pd_norm
      ∧ ∀ k, k < nq →
        (l.foldl (stepContrib m cutoff nq q dims values0) acc).result k
          = (l.foldl (stepContrib m cutoff nq q dims values0) acc').result k := by
  intro l
  induction l with
  | nil => intro acc acc' h1 h2; exact ⟨h1, h2⟩
  | cons t l ih =>
    intro acc acc' h1 h2
    refine ih _ _ ?_ ?_
    · unfold stepContrib kernelBody
      split
      · exact h1
      · split
        · simp only [h1]
        · exact h1
    · intro k hk
      unfold stepContrib kernelBody
      split
      · exact h2 k hk
      · split
        · simp only
          rw [if_pos hk, if_pos hk, h2 k hk]
        · exact h2 k hk

/-- Two consecutive slices accumulate exactly like the single slice over
their union: the second call reads back pd_norm from result[nq], keeps the
other entries, and the contribution folds concatenate. -/
theorem kernel_compose (m : Model) (nq : ℕ) {a b c : ℕ}
    (dims : List PdDim) (values0 : Pars) (q : ℕ → ℚ) (res : ℕ → ℚ)
    (cutoff : ℚ) (hWF : ∀ d ∈ dims, 0 < d.length)
    (hab : a < b) (hbc : b < c) (hc : c ≤ numPoints dims) :
    KERNEL_NAME m nq b c dims values0 q
      (KERNEL_NAME m nq a b dims values0 q res cutoff) cutoff
      = KERNEL_NAME m nq a c dims values0 q res cutoff := by
  have hb : b ≤ numPoints dims := by omega
  rw [kernel_eq_fold m nq dims values0 q res cutoff hWF hab hb]
  rw [kernel_eq_fold m nq dims values0 q _ cutoff hWF hbc hc]
  rw [kernel_eq_fold m nq dims values0 q res cutoff hWF (by omega : a < c) hc]
  have hbne : ¬ (b = 0) := by omega
  set F := stepContrib m cutoff nq q dims values0 with hF
  set A1 := (List.range' a (b - a)).foldl F (initAcc nq a res) with hA1
  have hinitb : initAcc nq b (fun k =>
      if k = nq then A1.pd_norm else A1.result k)
    = { result := fun k => if k = nq then A1.pd_norm else A1.result k,
        pd_norm := A1.pd_norm } := by
    unfold initAcc
    simp only [hbne, false_and, if_false]
    constructor
  have hcong := fold_congr_low m cutoff nq q dims values0
    (List.range' b (c - b))
    { result := fun k => if k = nq then A1.pd_norm else A1.result k,
      pd_norm := A1.pd_norm } A1 rfl
    (fun k hk => by simp only [if_neg (by omega : ¬ (k = nq))])
  have hsplice : (List.range' b (c - b)).foldl F A1
      = (List.range' a (c - a)).foldl F (initAcc nq a res) := by
    rw [hA1, ← List.foldl_append]
    have hr := List.range'_append_1 a (b - a) (c - b)
    rw [show a + (b - a) = b by omega] at hr
    rw [hr, show c - b + (b - a) = c - a by omega]
  funext k
  rcases lt_trichotomy k nq with hk | hk | hk
  · rw [if_neg (by omega), if_neg (by omega), hinitb]
    rw [hcong.2 k hk, hsplice]
  · rw [if_pos hk, if_pos hk, hinitb, hcong.1, hsplice]
  · rw [if_neg (by omega), if_neg (by omega), hinitb]
    rw [fold_result_high m cutoff nq q dims values0 _ _ k (by omega)]
    rw [fold_result_high m cutoff nq q dims values0 _ _ k (by omega)]
    simp only [if_neg (by omega : ¬ (k = nq))]
    rw [hA1, fold_result_high m cutoff nq q dims values0 _ _ k (by omega)]

theorem chain_le_getLast :
    ∀ (l : List ℕ) (x z : ℕ), List.Chain' (· < ·) (x :: l) →
      (x :: l).getLast? = some z → x ≤ z := by
  intro l
  induction l with
  | nil =>
    intro x z _ hlast
    simp only [List.getLast?_singleton, Option.some.injEq] at hlast
    omega
  | cons y l ih =>
    intro x z hchain hlast
    have hxy : x < y := List.chain'_cons.mp hchain |>.1
    have hy := ih y z (List.chain'_cons.mp hchain).2
      (by rw [← hlast, List.getLast?_cons_cons])
    omega

theorem runSlices_inv (m : Model) (nq : ℕ) (dims : List PdDim)
    (values0 : Pars) (q : ℕ → ℚ) (cutoff : ℚ) (z : ℕ)
    (hWF : ∀ d ∈ dims, 0 < d.length) :
    ∀ (rest : List ℕ) (b : ℕ) (res : ℕ → ℚ), 0 < b →
      List.Chain' (· < ·) (b :: rest) → (b :: rest).getLast? = some z →
      z ≤ numPoints dims →
      runSlices m nq dims values0 q cutoff (b :: rest)
        (KERNEL_NAME m nq 0 b dims values0 q res cutoff)
        = KERNEL_NAME m nq 0 z dims values0 q res cutoff := by
  intro rest
  induction rest with
  | nil =>
    intro b res _ _ hlast _
    simp only [List.getLast?_singleton, Option.some.injEq] at hlast
    subst hlast
    rfl
  | cons c rest ih =>
    intro b res hb hchain hlast hz
    have hbc : b < c := (List.chain'_cons.mp hchain).1
    have hchain' : List.Chain' (· < ·) (c :: rest) :=
      (List.chain'_cons.mp hchain).2
    have hlast' : (c :: rest).getLast? = some z := by
      rw [← hlast, List.getLast?_cons_cons]
    have hcz : c ≤ z := chain_le_getLast rest c z hchain' hlast'
    show runSlices m nq dims values0 q cutoff (c :: rest)
        (KERNEL_NAME m nq b c dims values0 q
          (KERNEL_NAME m nq 0 b dims values0 q res cutoff) cutoff) = _
    rw [kernel_compose m nq dims values0 q res cutoff hWF hb hbc (by omega)]
    exact ih c res (by omega) hchain' hlast' hz

/-- Claim C1 (resumability): for every partition
0 = s_0 < s_1 < ... < s_m = num_eval of the evaluation range, invoking the
kernel once per slice with (pd_start, pd_stop) = (s_j, s_j+1) in increasing
order of j, accumulating into the same result buffer, yields exactly the
same result array (all nq+1 entries, under the exact sequential
single-threaded accumulation the embedding models) as one single call with
(pd_start, pd_stop) = (0, num_eval).  This relies on the kernel zeroing
result[0..nq) and pd_norm when pd_start = 0 and otherwise seeding pd_norm
from result[nq] and keeping the existing result entries. -/
theorem resumability_partition (m : Model) (nq : ℕ) (dims : List PdDim)
    (values0 : Pars) (q : ℕ → ℚ) (res : ℕ → ℚ) (cutoff : ℚ)
    (cuts : List ℕ) (hWF : ∀ d ∈ dims, 0 < d.length)
    (hchain : List.Chain' (· < ·) cuts)
    (hhead : cuts.head? = some 0)
    (hlast : cuts.getLast? = some (numPoints dims)) :
    runSlices m nq dims values0 q cutoff cuts res
      = KERNEL_NAME m nq 0 (numPoints dims) dims values0 q res cutoff := by
  have hNP : 0 < numPoints dims := numPoints_pos hWF
  match cuts, hchain, hhead, hlast with
  | [], _, hhead, _ => simp at hhead
  | [s0], _, hhead, hlast =>
    simp only [List.head?_cons, Option.some.injEq] at hhead
    simp only [List.getLast?_singleton, Option.some.injEq] at hlast
    omega
  | s0 :: s1 :: rest, hchain, hhead, hlast =>
    simp only [List.head?_cons, Option.some.injEq] at hhead
    subst hhead
    have h01 : 0 < s1 := (List.chain'_cons.mp hchain).1
    have hchain' : List.Chain' (· < ·) (s1 :: rest) :=
      (List.chain'_cons.mp hchain).2
    have hlast' : (s1 :: rest).getLast? = some (numPoints dims) := by
      rw [← hlast, List.getLast?_cons_cons]
    show runSlices m nq dims values0 q cutoff (s1 :: rest)
        (KERNEL_NAME m nq 0 s1 dims values0 q res cutoff) = _
    exact runSlices_inv m nq dims values0 q cutoff (numPoints dims) hWF
      rest s1 res h01 hchain' hlast' (le_refl _)

/-- Claim C10 (implicit edge case): when there is at least one
polydispersity level and the kernel is called with the empty slice
pd_start = pd_stop (with pd_start < num_eval), the loop body still
executes once, for the cube point at index pd_start - its weight and
scattering are accumulated exactly as in the one-point slice
(pd_start, pd_start + 1) - because the termination test step >= pd_stop
runs only after the body has executed and step has been incremented. -/
theorem empty_slice_still_evaluates (m : Model) (nq : ℕ) (s : ℕ)
    (dims : List PdDim) (values0 : Pars) (q : ℕ → ℚ) (res : ℕ → ℚ)
    (cutoff : ℚ) (hWF : ∀ d ∈ dims, 0 < d.length)
    (hpd : 0 < dims.length) (hs : s < numPoints dims) :
    KERNEL_NAME m nq s s dims values0 q res cutoff
      = (fun k => if k = nq then
          (stepContrib m cutoff nq q dims values0 (initAcc nq s res) s).pd_norm
        else
          (stepContrib m cutoff nq q dims values0 (initAcc nq s res) s).result k)
    ∧ KERNEL_NAME m nq s s dims values0 q res cutoff
      = KERNEL_NAME m nq s (s + 1) dims values0 q res cutoff := by
  have hWFr : ∀ d ∈ dims.reverse, 0 < d.length := by
    intro d hd
    exact hWF d (List.mem_reverse.mp hd)
  have hone : KERNEL_NAME m nq s s dims values0 q res cutoff
      = (fun k => if k = nq then
          (stepContrib m cutoff nq q dims values0 (initAcc nq s res) s).pd_norm
        else
          (stepContrib m cutoff nq q dims values0 (initAcc nq s res) s).result k) := by
    show (fun k => if k = nq then
        (runNest s (kernelBody m cutoff nq q) dims.reverse
          (seedsO dims.reverse 1 s) 1 (values0, s, initAcc nq s res)).2.2.pd_norm
      else
        (runNest s (kernelBody m cutoff nq q) dims.reverse
          (seedsO dims.reverse 1 s) 1 (values0, s, initAcc nq s res)).2.2.result k) = _
    rw [runNest_once s (kernelBody m cutoff nq q) dims.reverse hWFr s values0
      (initAcc nq s res) 1 (by omega)]
    funext k
    simp only
    rw [nestPars_reverse, nestWeight_reverse]
    rfl
  refine ⟨hone, ?_⟩
  rw [hone, kernel_eq_fold m nq dims values0 q res cutoff hWF
    (by omega : s < s + 1) (by omega : s + 1 ≤ numPoints dims)]
  funext k
  rw [show s + 1 - s = 1 by omega]
  rfl

theorem foldl_append_eq_map {β : Type} (f : ℕ → β) :
    ∀ (l : List ℕ) (init : List β),
      l.foldl (fun a t => a ++ [f t]) init = init ++ l.map f := by
  intro l
  induction l with
  | nil => intro init; simp
  | cons t l ih => intro init; rw [List.foldl_cons, ih]; simp

theorem parsAt_length (dims : List PdDim) (t : ℕ) (p : Pars) :
    (parsAt dims t p).length = p.length := by
  induction dims generalizing t p with
  | nil => rfl
  | cons d rest ih => simp [parsAt, ih]

theorem seedsO_reverse_getD (start : ℕ) :
    ∀ (dims : List PdDim) (base j : ℕ), j < dims.length →
      ((seedsO dims.reverse base start).reverse.getD j 0)
        = start / (strideAt dims j * base) % (dims.getD j default).length := by
  intro dims
  induction dims with
  | nil => intro base j hj; simp at hj
  | cons d rest ih =>
    intro base j hj
    have happ : seedsO ((d :: rest).reverse) base start
        = seedsO rest.reverse (d.length * base) start
          ++ [start / base % d.length] := by
      rw [List.reverse_cons]
      exact seedsO_append rest.reverse d base start
    rw [happ, List.reverse_append]
    cases j with
    | zero =>
      simp [strideAt_zero, List.getD]
    | succ j =>
      have hj' : j < rest.length := by simpa using hj
      show (List.reverse (seedsO rest.reverse (d.length * base) start)).getD j 0 = _
      rw [ih (d.length * base) j hj']
      rw [strideAt_cons_succ]
      have : strideAt rest j * (d.length * base)
          = d.length * strideAt rest j * base := by ring
      rw [this]
      rfl

theorem parsAt_getD :
    ∀ (dims : List PdDim) (t : ℕ) (p : Pars),
      (dims.map PdDim.par).Nodup → (∀ d ∈ dims, d.par < p.length) →
      ∀ j, j < dims.length →
        (parsAt dims t p).getD (dims.getD j default).par 0
          = (dims.getD j default).values
            (t / strideAt dims j % (dims.getD j default).length) := by
  intro dims
  induction dims with
  | nil => intro t p _ _ j hj; simp at hj
  | cons d rest ih =>
    intro t p hnodup hbound j hj
    cases j with
    | zero =>
      rw [List.getD_cons_zero]
      show ((parsAt rest (t / d.length) p).set d.par
        (d.values (t % d.length))).getD d.par 0 = _
      have hb : d.par < (parsAt rest (t / d.length) p).length := by
        rw [parsAt_length]
        exact hbound d (List.mem_cons_self d rest)
      rw [List.getD_eq_getElem?_getD, List.getElem?_set_eq_of_lt _ hb]
      rw [strideAt_zero, Nat.div_one]
      rfl
    | succ j =>
      have hj' : j < rest.length := by simpa using hj
      rw [List.getD_cons_succ]
      have hslot : (rest.getD j default).par ∈ rest.map PdDim.par := by
        rw [List.getD_eq_getElem rest default hj']
        exact List.mem_map_of_mem _ (List.getElem_mem hj')
      have hnodup' : (d.par :: rest.map PdDim.par).Nodup := hnodup
      have hne : d.par ≠ (rest.getD j default).par := by
        intro heq
        have hnin := (List.nodup_cons.mp hnodup').1
        rw [heq] at hnin
        exact hnin hslot
      show ((parsAt rest (t / d.length) p).set d.par
        (d.values (t % d.length))).getD (rest.getD j default).par 0 = _
      rw [List.getD_eq_getElem?_getD, List.getElem?_set_ne hne,
        ← List.getD_eq_getElem?_getD]
      rw [ih (t / d.length) p (List.nodup_cons.mp hnodup').2
        (fun x hx => hbound x (List.mem_cons_of_mem d hx)) j hj']
      rw [strideAt_cons_succ]
      rw [show t / (d.length * strideAt rest j) = t / d.length / strideAt rest j
        from (Nat.div_div_eq_div_mul t d.length (strideAt rest j)).symm]

/-- Claim C2 (hypercube enumeration): for every well-formed problem
descriptor (positive grid lengths; strides the products of the inner
lengths, as the embedding computes them; num_eval the product of all
lengths) and every slice 0 <= pd_start < pd_stop <= num_eval, the kernel
loop visits exactly the cube points whose mixed-radix linear index
step = sum of i_d * pd_stride[d] lies in [pd_start, pd_stop), in
increasing order of step with i_0 the fastest-varying dimension; each
level starts its counter at (pd_start / pd_stride[d]) % pd_length[d]; and
at each visited point the parameter block holds pd_value[d][i_d] in slot
pd_par[d] for every dimension d (the slots being pairwise distinct and in
range). -/
theorem hypercube_enumeration (dims : List PdDim) (values0 : Pars)
    (start stop : ℕ) (hlen : ∀ d ∈ dims, 0 < d.length)
    (hnodup : (dims.map PdDim.par).Nodup)
    (hbound : ∀ d ∈ dims, d.par < values0.length)
    (h1 : start < stop) (h2 : stop ≤ numPoints dims) :
    nestTrace stop dims start values0
      = (List.range' start (stop - start)).map
          (fun t => (parsAt dims t values0, weightAt dims t))
    ∧ (∀ j, j < dims.length →
        (seedsO dims.reverse 1 start).reverse.getD j 0
          = start / strideAt dims j % (dims.getD j default).length)
    ∧ (∀ t j, j < dims.length →
        (parsAt dims t values0).getD (dims.getD j default).par 0
          = (dims.getD j default).values
            (t / strideAt dims j % (dims.getD j default).length)) := by
  refine ⟨?_, ?_, ?_⟩
  · have hWFr : ∀ d ∈ dims.reverse, 0 < d.length := by
      intro d hd
      exact hlen d (List.mem_reverse.mp hd)
    have hNP : numPoints dims.reverse = numPoints dims := numPoints_reverse dims
    have hrun := runNest_eq stop
      (fun (p : Pars) (w : ℚ) (acc : List (Pars × ℚ)) => acc ++ [(p, w)])
      dims.reverse hWFr start values0 [] 1 h1
    have hE : blockEnd stop dims.reverse start = stop := by
      unfold blockEnd
      rw [hNP, Nat.div_eq_of_lt (by omega)]
      omega
    rw [hE] at hrun
    show (runNest stop _ dims.reverse (seedsO dims.reverse 1 start) 1
      (values0, start, [])).2.2 = _
    rw [hrun]
    show nestFold
      (fun (p : Pars) (w : ℚ) (acc : List (Pars × ℚ)) => acc ++ [(p, w)])
      dims.reverse values0 1 start stop [] = _
    unfold nestFold
    have hext : (List.range' start (stop - start)).foldl
        (fun (a : List (Pars × ℚ)) t =>
          (fun (p : Pars) (w : ℚ) (acc : List (Pars × ℚ)) => acc ++ [(p, w)])
            (nestPars dims.reverse t values0) (nestWeight dims.reverse t 1) a) []
      = (List.range' start (stop - start)).foldl
        (fun (a : List (Pars × ℚ)) t =>
          a ++ [(parsAt dims t values0, weightAt dims t)]) [] := by
      refine List.foldl_ext _ _ _ ?_
      intro a t _
      rw [nestPars_reverse, nestWeight_reverse]
    rw [hext, foldl_append_eq_map (fun t => (parsAt dims t values0, weightAt dims t))]
    rw [List.nil_append]
  · intro j hj
    rw [seedsO_reverse_getD start dims 1 j hj, Nat.mul_one]
  · intro t j hj
    exact parsAt_getD dims t values0 hnodup hbound j hj

/-- The cumulative weight is the product over all dimensions of the
per-dimension weights at the mixed-radix digits. -/
theorem weightAt_prod :
    ∀ (dims : List PdDim) (t : ℕ),
      weightAt dims t = ∏ j ∈ Finset.range dims.length,
        (dims.getD j default).weights
          (t / strideAt dims j % (dims.getD j default).length) := by
  intro dims
  induction dims with
  | nil => intro t; simp [weightAt]
  | cons d rest ih =>
    intro t
    show d.weights (t % d.length) * weightAt rest (t / d.length) = _
    rw [ih (t / d.length), List.length_cons, Finset.prod_range_succ']
    have hterm : ∀ j ∈ Finset.range rest.length,
        ((d :: rest).getD (j + 1) default).weights
          (t / strideAt (d :: rest) (j + 1)
            % ((d :: rest).getD (j + 1) default).length)
        = (rest.getD j default).weights
          (t / d.length / strideAt rest j % (rest.getD j default).length) := by
      intro j _
      rw [List.getD_cons_succ, strideAt_cons_succ,
        show t / (d.length * strideAt rest j) = t / d.length / strideAt rest j
          from (Nat.div_div_eq_div_mul _ _ _).symm]
    rw [Finset.prod_congr rfl hterm]
    rw [show ((d :: rest).getD 0 default) = d from List.getD_cons_zero]
    rw [strideAt_zero, Nat.div_one]
    ring

/-- Claim C3 (skip policy): a visited cube point with parameter block p and
cumulative weight w contributes to the result if and only if invalid(p) is
false and w > cutoff; when it contributes it adds w * form_volume(p) to
pd_norm and w * s_k to result[k] for every q index k < nq; when it is
skipped it contributes to neither the numerator entries nor the
denominator; and the cutoff test is applied to the cumulative weight,
which is the product of all the dimension weights, not per-dimension. -/
theorem skip_policy (m : Model) (nq : ℕ) {start stop : ℕ}
    (dims : List PdDim) (values0 : Pars) (q : ℕ → ℚ) (res : ℕ → ℚ)
    (cutoff : ℚ) (hWF : ∀ d ∈ dims, 0 < d.length)
    (h1 : start < stop) (h2 : stop ≤ numPoints dims) :
    (∀ k, KERNEL_NAME m nq start stop dims values0 q res cutoff k
      = (if k = nq then
          ((List.range' start (stop - start)).foldl
            (fun (acc : Acc) t =>
              if m.invalid (parsAt dims t values0) then acc
              else if weightAt dims t > cutoff then
                { pd_norm := acc.pd_norm
                    + weightAt dims t * m.form_volume (parsAt dims t values0),
                  result := fun j => if j < nq then
                      acc.result j + weightAt dims t * m.Iq (q j) (parsAt dims t values0)
                    else acc.result j }
              else acc)
            (initAcc nq start res)).pd_norm
        else
          ((List.range' start (stop - start)).foldl
            (fun (acc : Acc) t =>
              if m.invalid (parsAt dims t values0) then acc
              else if weightAt dims t > cutoff then
                { pd_norm := acc.pd_norm
                    + weightAt dims t * m.form_volume (parsAt dims t values0),
                  result := fun j => if j < nq then
                      acc.result j + weightAt dims t * m.Iq (q j) (parsAt dims t values0)
                    else acc.result j }
              else acc)
            (initAcc nq start res)).result k))
    ∧ (∀ t, weightAt dims t = ∏ j ∈ Finset.range dims.length,
        (dims.getD j default).weights
          (t / strideAt dims j % (dims.getD j default).length)) := by
  constructor
  · intro k
    rw [kernel_eq_fold m nq dims values0 q res cutoff hWF h1 h2]
    rfl
  · intro t
    exact weightAt_prod dims t

/-- The E2 scenario model: Iq(q, p) = p (the single model parameter),
form_volume = 1, no invalid predicate. -/
def e2Model : Model :=
  { Iq := fun _ pars => pars.getD 0 0,
    form_volume := fun _ => 1,
    invalid := fun _ => false }

/-- The E2 polydispersity dimension: one active dimension of length 3
driving parameter slot 0 with values [1, 2, 3] and weights
[1/4, 1/2, 1/4]. -/
def e2Dim : PdDim :=
  { par := 0, length := 3,
    values := fun i => ([1, 2, 3] : List ℚ).getD i 0,
    weights := fun i => ([1/4, 1/2, 1/4] : List ℚ).getD i 0 }

/-- Claim C4 (E2 end-to-end): with Iq(q, p) = p, one active dimension of
length 3 with values [1, 2, 3] and weights [0.25, 0.5, 0.25],
form_volume = 1, no invalid predicate, any cutoff below 0.25, and the full
slice (pd_start, pd_stop) = (0, 3), the kernel produces result[k] = 2 for
every k < nq and result[nq] = 1. -/
theorem e2_end_to_end (nq : ℕ) (q : ℕ → ℚ) (res : ℕ → ℚ) (cutoff : ℚ)
    (p0 : ℚ) (hcut : cutoff < 1/4) :
    (∀ k, k < nq →
      KERNEL_NAME e2Model nq 0 3 [e2Dim] [p0] q res cutoff k = 2)
    ∧ KERNEL_NAME e2Model nq 0 3 [e2Dim] [p0] q res cutoff nq = 1 := by
  have hWF : ∀ d ∈ [e2Dim], 0 < d.length := by
    intro d hd
    rw [List.mem_singleton.mp hd]
    norm_num [e2Dim]
  have hNP : numPoints [e2Dim] = 3 := rfl
  have hfold := @kernel_eq_fold e2Model nq 0 3 [e2Dim] [p0] q res cutoff
    hWF (by omega) (le_of_eq hNP.symm)
  have hcut2 : cutoff < 1/2 := by linarith
  have hrange : List.range' 0 (3 - 0) = [0, 1, 2] := rfl
  have hpars : ∀ t, parsAt [e2Dim] t [p0] = [e2Dim.values (t % 3)] := by
    intro t
    show (parsAt [] (t / e2Dim.length) [p0]).set e2Dim.par
      (e2Dim.values (t % e2Dim.length)) = _
    rfl
  have hweight : ∀ t, weightAt [e2Dim] t = e2Dim.weights (t % 3) * 1 := by
    intro t
    rfl
  have hstep : ∀ (acc : Acc) (t : ℕ), t < 3 →
      stepContrib e2Model cutoff nq q [e2Dim] [p0] acc t
        = { pd_norm := acc.pd_norm + e2Dim.weights t * 1 * 1,
            result := fun j => if j < nq then
                acc.result j + e2Dim.weights t * 1 * e2Dim.values t
              else acc.result j } := by
    intro acc t ht
    have htm : t % 3 = t := Nat.mod_eq_of_lt ht
    have hwpos : cutoff < e2Dim.weights t * 1 := by
      interval_cases t
      · show cutoff < 1/4 * 1
        linarith
      · show cutoff < 1/2 * 1
        linarith
      · show cutoff < 1/4 * 1
        linarith
    unfold stepContrib kernelBody
    rw [hpars, hweight, htm]
    rw [if_neg (by simp [e2Model])]
    rw [if_pos (by exact hwpos)]
    show ({ pd_norm := acc.pd_norm + e2Dim.weights t * 1
              * e2Model.form_volume [e2Dim.values t],
            result := fun j => if j < nq then
                acc.result j + e2Dim.weights t * 1
                  * e2Model.Iq (q j) [e2Dim.values t]
              else acc.result j } : Acc) = _
    have hvol : e2Model.form_volume [e2Dim.values t] = 1 := rfl
    have hiq : ∀ j, e2Model.Iq (q j) [e2Dim.values t] = e2Dim.values t := by
      intro j
      rfl
    constructor
  have w0 : e2Dim.weights 0 = 1/4 := rfl
  have w1 : e2Dim.weights 1 = 1/2 := rfl
  have w2 : e2Dim.weights 2 = 1/4 := rfl
  have v0 : e2Dim.values 0 = 1 := rfl
  have v1 : e2Dim.values 1 = 2 := rfl
  have v2 : e2Dim.values 2 = 3 := rfl
  have hfinal : (List.range' 0 (3 - 0)).foldl
      (stepContrib e2Model cutoff nq q [e2Dim] [p0]) (initAcc nq 0 res)
    = { pd_norm := ((0 + 1/4 * 1 * 1) + 1/2 * 1 * 1) + 1/4 * 1 * 1,
        result := fun j => if j < nq then
            ((0 + 1/4 * 1 * 1) + 1/2 * 1 * 2) + 1/4 * 1 * 3
          else res j } := by
    rw [hrange]
    simp only [List.foldl_cons, List.foldl_nil]
    rw [hstep _ 0 (by omega), hstep _ 1 (by omega), hstep _ 2 (by omega)]
    rw [w0, w1, w2, v0, v1, v2]
    unfold initAcc
    simp only
    congr 1
    funext j
    by_cases hj : j < nq <;> simp [hj]
  constructor
  · intro k hk
    have hkne : ¬ (k = nq) := by omega
    rw [hfold]
    simp only [hfinal, hkne, if_false, hk, if_true]
    norm_num
  · rw [hfold]
    simp only [hfinal, if_pos]
    norm_num

/-- Scale every weight entry of one polydispersity dimension by c,
leaving its slot, length and value grid unchanged. -/
def scaleWeights (c : ℚ) (d : PdDim) : PdDim :=
  { d with weights := fun i => c * d.weights i }

/-- Scale the weight grids of the first num_active dimensions (the active
ones: the C code keeps the trivial dimensions after them). -/
def scaleActive (c : ℚ) : ℕ → List PdDim → List PdDim
  | _, [] => []
  | 0, dims => dims
  | k + 1, d :: rest => scaleWeights c d :: scaleActive c k rest

theorem scaleActive_WF (c : ℚ) :
    ∀ (k : ℕ) (dims : List PdDim), (∀ d ∈ dims, 0 < d.length) →
      ∀ d ∈ scaleActive c k dims, 0 < d.length := by
  intro k
  induction k with
  | zero =>
    intro dims h d hd
    cases dims with
    | nil => simp [scaleActive] at hd
    | cons x rest => exact h d hd
  | succ k ih =>
    intro dims h d hd
    cases dims with
    | nil => simp [scaleActive] at hd
    | cons x rest =>
      simp only [scaleActive, List.mem_cons] at hd
      rcases hd with hd | hd
      · subst hd
        exact h x (List.mem_cons_self x rest)
      · exact ih rest (fun y hy => h y (List.mem_cons_of_mem x hy)) d hd

theorem scaleActive_numPoints (c : ℚ) :
    ∀ (k : ℕ) (dims : List PdDim),
      numPoints (scaleActive c k dims) = numPoints dims := by
  intro k
  induction k with
  | zero =>
    intro dims
    cases dims with
    | nil => rfl
    | cons x rest => rfl
  | succ k ih =>
    intro dims
    cases dims with
    | nil => rfl
    | cons x rest =>
      show numPoints (scaleWeights c x :: scaleActive c k rest) = _
      rw [numPoints_cons, numPoints_cons, ih rest]
      rfl

theorem parsAt_scaleActive (c : ℚ) :
    ∀ (k : ℕ) (dims : List PdDim) (t : ℕ) (p : Pars),
      parsAt (scaleActive c k dims) t p = parsAt dims t p := by
  intro k
  induction k with
  | zero =>
    intro dims t p
    cases dims with
    | nil => rfl
    | cons x rest => rfl
  | succ k ih =>
    intro dims t p
    cases dims with
    | nil => rfl
    | cons x rest =>
      show (parsAt (scaleActive c k rest) (t / (scaleWeights c x).length) p).set
        (scaleWeights c x).par ((scaleWeights c x).values
          (t % (scaleWeights c x).length)) = _
      rw [ih rest]
      rfl

theorem weightAt_scaleActive (c : ℚ) :
    ∀ (k : ℕ) (dims : List PdDim), k ≤ dims.length → ∀ (t : ℕ),
      weightAt (scaleActive c k dims) t = c ^ k * weightAt dims t := by
  intro k
  induction k with
  | zero =>
    intro dims _ t
    cases dims with
    | nil => simp [scaleActive, weightAt]
    | cons x rest => simp [scaleActive]
  | succ k ih =>
    intro dims hk t
    cases dims with
    | nil => simp at hk
    | cons x rest =>
      show (scaleWeights c x).weights (t % (scaleWeights c x).length)
          * weightAt (scaleActive c k rest) (t / (scaleWeights c x).length)
        = c ^ (k + 1) * weightAt (x :: rest) t
      have hk' : k ≤ rest.length := by simpa using hk
      show c * x.weights (t % x.length)
          * weightAt (scaleActive c k rest) (t / x.length) = _
      rw [ih rest hk' (t / x.length)]
      show _ = c ^ (k + 1) * (x.weights (t % x.length) * weightAt rest (t / x.length))
      ring

/-- Claim C7 (weight linearity): scaling every weight entry of the active
dimensions by a constant c > 0 (with the cutoff scaled by the same factor,
so that exactly the same set of points passes the cutoff test) scales
every accumulated entry result[k] for k < nq and the denominator
result[nq] by c^num_active, leaving the normalized ratio
result[k] / result[nq] invariant. -/
theorem weight_linearity (m : Model) (nq : ℕ) (dims : List PdDim)
    (values0 : Pars) (q : ℕ → ℚ) (res : ℕ → ℚ) (cutoff : ℚ)
    (c : ℚ) (num_active : ℕ) (hWF : ∀ d ∈ dims, 0 < d.length)
    (hna : num_active ≤ dims.length) (hc : 0 < c) :
    (∀ k, k < nq →
      KERNEL_NAME m nq 0 (numPoints dims) (scaleActive c num_active dims)
          values0 q res (c ^ num_active * cutoff) k
        = c ^ num_active
          * KERNEL_NAME m nq 0 (numPoints dims) dims values0 q res cutoff k)
    ∧ KERNEL_NAME m nq 0 (numPoints dims) (scaleActive c num_active dims)
          values0 q res (c ^ num_active * cutoff) nq
        = c ^ num_active
          * KERNEL_NAME m nq 0 (numPoints dims) dims values0 q res cutoff nq
    ∧ (∀ k, k < nq →
      KERNEL_NAME m nq 0 (numPoints dims) (scaleActive c num_active dims)
          values0 q res (c ^ num_active * cutoff) k
        / KERNEL_NAME m nq 0 (numPoints dims) (scaleActive c num_active dims)
          values0 q res (c ^ num_active * cutoff) nq
        = KERNEL_NAME m nq 0 (numPoints dims) dims values0 q res cutoff k
          / KERNEL_NAME m nq 0 (numPoints dims) dims values0 q res cutoff nq) := by
  have hNP : 0 < numPoints dims := numPoints_pos hWF
  have hWF' := scaleActive_WF c num_active dims hWF
  have hcpow : (0 : ℚ) < c ^ num_active := pow_pos hc num_active
  have hfold1 := @kernel_eq_fold m nq 0 (numPoints dims) dims values0 q res
    cutoff hWF (by omega) (le_refl _)
  have hfold2 := @kernel_eq_fold m nq 0 (numPoints dims)
    (scaleActive c num_active dims) values0 q res (c ^ num_active * cutoff)
    hWF' (by omega) (le_of_eq (scaleActive_numPoints c num_active dims).symm)
  have key : ∀ (l : List ℕ) (acc acc' : Acc),
      acc'.pd_norm = c ^ num_active * acc.pd_norm →
      (∀ k, k < nq → acc'.result k = c ^ num_active * acc.result k) →
      ((l.foldl (stepContrib m (c ^ num_active * cutoff) nq q
          (scaleActive c num_active dims) values0) acc').pd_norm
        = c ^ num_active
          * (l.foldl (stepContrib m cutoff nq q dims values0) acc).pd_norm)
      ∧ ∀ k, k < nq →
        ((l.foldl (stepContrib m (c ^ num_active * cutoff) nq q
            (scaleActive c num_active dims) values0) acc').result k
          = c ^ num_active
            * (l.foldl (stepContrib m cutoff nq q dims values0) acc).result k) := by
    intro l
    induction l with
    | nil => intro acc acc' h1 h2; exact ⟨h1, h2⟩
    | cons t l ih =>
      intro acc acc' h1 h2
      refine ih _ _ ?_ ?_
      · unfold stepContrib kernelBody
        rw [parsAt_scaleActive, weightAt_scaleActive c num_active dims hna]
        by_cases hinv : m.invalid (parsAt dims t values0)
        · rw [if_pos hinv, if_pos hinv]
          exact h1
        · rw [if_neg hinv, if_neg hinv]
          by_cases hw : weightAt dims t > cutoff
          · rw [if_pos hw, if_pos (by
              show c ^ num_active * cutoff < c ^ num_active * weightAt dims t
              exact (mul_lt_mul_left hcpow).mpr hw)]
            simp only [h1]
            ring
          · rw [if_neg hw, if_neg (by
              show ¬ (c ^ num_active * cutoff < c ^ num_active * weightAt dims t)
              intro hcon
              exact hw ((mul_lt_mul_left hcpow).mp hcon))]
            exact h1
      · intro k hk
        unfold stepContrib kernelBody
        rw [parsAt_scaleActive, weightAt_scaleActive c num_active dims hna]
        by_cases hinv : m.invalid (parsAt dims t values0)
        · rw [if_pos hinv, if_pos hinv]
          exact h2 k hk
        · rw [if_neg hinv, if_neg hinv]
          by_cases hw : weightAt dims t > cutoff
          · rw [if_pos hw, if_pos (by
              show c ^ num_active * cutoff < c ^ num_active * weightAt dims t
              exact (mul_lt_mul_left hcpow).mpr hw)]
            simp only [if_pos hk]
            rw [h2 k hk]
            ring
          · rw [if_neg hw, if_neg (by
              show ¬ (c ^ num_active * cutoff < c ^ num_active * weightAt dims t)
              intro hcon
              exact hw ((mul_lt_mul_left hcpow).mp hcon))]
            exact h2 k hk
  have hmain := key (List.range' 0 (numPoints dims - 0))
    (initAcc nq 0 res) (initAcc nq 0 res)
    (by show (if (0 : ℕ) = 0 then (0 : ℚ) else res nq)
          = c ^ num_active * (if (0 : ℕ) = 0 then (0 : ℚ) else res nq)
        rw [if_pos rfl]
        ring)
    (by intro k hk
        show (if (0 : ℕ) = 0 ∧ k < nq then (0 : ℚ) else res k)
          = c ^ num_active * (if (0 : ℕ) = 0 ∧ k < nq then (0 : ℚ) else res k)
        rw [if_pos (And.intro rfl hk)]
        ring)
  have hout1 : ∀ k, k < nq →
      KERNEL_NAME m nq 0 (numPoints dims) (scaleActive c num_active dims)
          values0 q res (c ^ num_active * cutoff) k
        = c ^ num_active
          * KERNEL_NAME m nq 0 (numPoints dims) dims values0 q res cutoff k := by
    intro k hk
    rw [hfold1, hfold2]
    simp only [if_neg (by omega : ¬ (k = nq))]
    exact hmain.2 k hk
  have hout2 :
      KERNEL_NAME m nq 0 (numPoints dims) (scaleActive c num_active dims)
          values0 q res (c ^ num_active * cutoff) nq
        = c ^ num_active
          * KERNEL_NAME m nq 0 (numPoints dims) dims values0 q res cutoff nq := by
    rw [hfold1, hfold2]
    simp only [if_pos rfl]
    exact hmain.1
  refine ⟨hout1, hout2, ?_⟩
  intro k hk
  rw [hout1 k hk, hout2]
  exact mul_div_mul_left _ _ (ne_of_gt hcpow)

/-- mag_sld, kernel_iq.c lines 65-70: the effective scattering length
density sld + (qy*mx - qx*my)*p. -/
def mag_sld (qx qy p mx my sld : ℚ) : ℚ := sld + (qy * mx - qx * my) * p

/-- The polarization projections p[0..3], kernel_iq.c lines 383-386:
p[0] = (qy*cos_mspin + qx*sin_mspin)/qsq, p[3] = -p[0],
p[1] = p[2] = (qy*sin_mspin - qx*cos_mspin)/qsq. -/
def polCross (qx qy sin_mspin cos_mspin : ℚ) (index : ℕ) : ℚ :=
  let qsq := qx * qx + qy * qy
  if index = 0 then (qy * cos_mspin + qx * sin_mspin) / qsq
  else if index = 3 then -((qy * cos_mspin + qx * sin_mspin) / qsq)
  else (qy * sin_mspin - qx * cos_mspin) / qsq

/-- The SLD rewrite of kernel_iq.c lines 394-415: for every magnetic
parameter (M offset into the raw values array, driven parameter-block
slot), set the slot to

xs * (axis ? (index==1 ? -values[M+2] : values[M+2])
           : mag_sld(qx, qy, pk, values[M], values[M+1],
                     (spin_flip ? 0.0 : values[sld_offset+2]))).

The rewrite reads only the raw values array (never the parameter block),
and every magnetic slot is rewritten before each form-factor call, so the
table passed to the form factor does not depend on earlier rewrites; the
embedding therefore applies the rewrite to the incoming table directly. -/
def sldRewriteTable (qx qy pk xs : ℚ) (spin_flip : Bool) (axis index : ℕ)
    (vals : ℕ → ℚ) (mags : List (ℕ × ℕ)) (tbl : Pars) : Pars :=
  mags.foldl (fun t mo =>
    t.set mo.2 (xs * (if axis ≠ 0 then
        (if index = 1 then -(vals (mo.1 + 2)) else vals (mo.1 + 2))
      else mag_sld qx qy pk (vals mo.1) (vals (mo.1 + 1))
        (if spin_flip then 0 else vals (mo.2 + 2))))) tbl

/-- One spin cross-section's scattering contribution accumulated from
zero: the axis loop of kernel_iq.c lines 393-423 (one axis for the
non-spin-flip sections dd and uu, two for the spin-flip ones du and ud),
each axis evaluating the form factor on the rewritten table. -/
def spinContrib (qx qy sin_mspin cos_mspin : ℚ) (vals : ℕ → ℚ)
    (mags : List (ℕ × ℕ)) (ff : Pars → ℚ) (tbl : Pars) (spins : ℕ → ℚ)
    (index : ℕ) : ℚ :=
  let spin_flip : Bool := index == 1 || index == 2
  (List.range (if spin_flip then 2 else 1)).foldl
    (fun sc axis => sc + ff (sldRewriteTable qx qy
      (polCross qx qy sin_mspin cos_mspin index) (spins index)
      spin_flip axis index vals mags tbl)) 0

/-- The magnetic scattering of one q point, kernel_iq.c lines 375-426:
zero when qsq = qx^2 + qy^2 is at most 1e-16, and otherwise the spin loop
over the four cross-sections, each entered only when its weight exceeds
1e-8, accumulating the form factor over the rewritten tables.  ff stands
for the dispatched form-factor call (CALL_IQ_A / view_direct) at this q
point. -/
def magScattering (qx qy : ℚ) (spins : ℕ → ℚ) (sin_mspin cos_mspin : ℚ)
    (vals : ℕ → ℚ) (mags : List (ℕ × ℕ)) (ff : Pars → ℚ) (tbl : Pars) : ℚ :=
  let qsq := qx * qx + qy * qy
  if qsq > 1 / 10 ^ 16 then
    (List.range 4).foldl (fun scattering index =>
      let xs := spins index
      if xs > 1 / 10 ^ 8 then
        let spin_flip : Bool := index == 1 || index == 2
        (List.range (if spin_flip then 2 else 1)).foldl
          (fun sc axis => sc + ff (sldRewriteTable qx qy
            (polCross qx qy sin_mspin cos_mspin index) xs
            spin_flip axis index vals mags tbl)) scattering
      else scattering) 0
  else 0

theorem foldl_add_shift (g : ℕ → ℚ) :
    ∀ (l : List ℕ) (sc : ℚ),
      l.foldl (fun a x => a + g x) sc = sc + l.foldl (fun a x => a + g x) 0 := by
  intro l
  induction l with
  | nil => intro sc; simp
  | cons x l ih =>
    intro sc
    simp only [List.foldl_cons]
    rw [ih (sc + g x), ih (0 + g x)]
    ring

/-- Claim C8 (magnetic zero-q): in magnetic mode, for every q point with
qsq = qx^2 + qy^2 at most 1e-16 the scattering contribution of the point
is exactly zero, whatever the spin weights, tables and form factor (no
cross-section is evaluated and no SLD rewrite occurs); for qsq above
1e-16, exactly the spin cross-sections with spins[i] > 1e-8 are evaluated,
so the result is the sum of the contributions of those cross-sections. -/
theorem magnetic_zero_q (qx qy : ℚ) (spins : ℕ → ℚ)
    (sin_mspin cos_mspin : ℚ) (vals : ℕ → ℚ) (mags : List (ℕ × ℕ))
    (ff : Pars → ℚ) (tbl : Pars) :
    (qx * qx + qy * qy ≤ 1 / 10 ^ 16 →
      magScattering qx qy spins sin_mspin cos_mspin vals mags ff tbl = 0)
    ∧ (1 / 10 ^ 16 < qx * qx + qy * qy →
      magScattering qx qy spins sin_mspin cos_mspin vals mags ff tbl
        = (((List.range 4).filter
              (fun index => 1 / 10 ^ 8 < spins index)).map
            (spinContrib qx qy sin_mspin cos_mspin vals mags ff tbl spins)).sum) := by
  constructor
  · intro h
    unfold magScattering
    rw [if_neg (by exact not_lt.mpr h)]
  · intro h
    unfold magScattering
    rw [if_pos h]
    have key : ∀ (l : List ℕ) (sc : ℚ),
        l.foldl (fun scattering index =>
          if spins index > 1 / 10 ^ 8 then
            (List.range (if ((index == 1 || index == 2) : Bool) then 2 else 1)).foldl
              (fun sc' axis => sc' + ff (sldRewriteTable qx qy
                (polCross qx qy sin_mspin cos_mspin index) (spins index)
                (index == 1 || index == 2) axis index vals mags tbl)) scattering
          else scattering) sc
        = sc + ((l.filter (fun index => 1 / 10 ^ 8 < spins index)).map
            (spinContrib qx qy sin_mspin cos_mspin vals mags ff tbl spins)).sum := by
      intro l
      induction l with
      | nil => intro sc; simp
      | cons i l ih =>
        intro sc
        simp only [List.foldl_cons]
        by_cases hi : spins i > 1 / 10 ^ 8
        · rw [if_pos hi]
          rw [foldl_add_shift
            (fun axis => ff (sldRewriteTable qx qy
              (polCross qx qy sin_mspin cos_mspin i) (spins i)
              (i == 1 || i == 2) axis i vals mags tbl)) _ sc]
          rw [ih]
          rw [List.filter_cons_of_pos (by exact decide_eq_true hi)]
          rw [List.map_cons, List.sum_cons]
          have hcontrib : spinContrib qx qy sin_mspin cos_mspin vals mags
              ff tbl spins i
            = (List.range (if ((i == 1 || i == 2) : Bool) then 2 else 1)).foldl
              (fun sc' axis => sc' + ff (sldRewriteTable qx qy
                (polCross qx qy sin_mspin cos_mspin i) (spins i)
                (i == 1 || i == 2) axis i vals mags tbl)) 0 := rfl
          rw [← hcontrib]
          ring
        · rw [if_neg hi, ih]
          rw [List.filter_cons_of_neg (by
            intro hcon
            exact hi (of_decide_eq_true hcon))]
    rw [key (List.range 4) 0]
    ring

/-- The shell-pair loop of multilayer_vesicle_kernel,
models/multilayer_vesicle.c lines 17-34: a do-while loop over ii, two
layers at a time.  sph_j1c and the constant M_4PI_3 come from external
library headers and are parameters j1c and pi43 of the embedding.  fuel
bounds the number of recursions; every call supplies at least
n_pairs - 1 - ii, so the loop condition ii + 1 <= n_pairs - 1 always
decides the exit. -/
def mlv_loop (j1c : ℚ → ℚ)
    (pi43 q thick_shell thick_solvent sldi radius : ℚ) (n_pairs : ℕ) :
    ℕ → ℕ → ℚ → ℚ → ℚ × ℚ
  | fuel, ii, fval, _voli =>
    let ri := radius + (ii : ℚ) * (thick_shell + thick_solvent)
    let voli1 := pi43 * ri * ri * ri
    let fval1 := fval + voli1 * sldi * j1c (ri * q)
    let ri2 := ri + thick_shell
    let voli2 := pi43 * ri2 * ri2 * ri2
    let fval2 := fval1 - voli2 * sldi * j1c (ri2 * q)
    match fuel with
    | 0 => (fval2, voli2)
    | fuel + 1 =>
      if ii + 1 ≤ n_pairs - 1 then
        mlv_loop j1c pi43 q thick_shell thick_solvent sldi radius n_pairs
          fuel (ii + 1) fval2 voli2
      else (fval2, voli2)

/-- multilayer_vesicle_kernel, models/multilayer_vesicle.c lines 1-39:
run the shell loop from ii = 0, fval = voli = 0, then scale
fval *= volfraction * 1.0e-4 * fval / voli. -/
def multilayer_vesicle_kernel (j1c : ℚ → ℚ)
    (pi43 q volfraction radius thick_shell thick_solvent
      sld_solvent sld : ℚ) (n_pairs : ℕ) : ℚ :=
  let sldi := sld_solvent - sld
  let out := mlv_loop j1c pi43 q thick_shell thick_solvent sldi radius
    n_pairs n_pairs 0 0 0
  out.1 * (volfraction * (1 / 10000) * out.1 / out.2)

/-- One term of the alternating shell-pair sum: the contribution of pair
i, layer 1 minus layer 2. -/
def mlvTerm (j1c : ℚ → ℚ) (pi43 q thick_shell thick_solvent sldi radius : ℚ)
    (i : ℕ) : ℚ :=
  let r1 := radius + (i : ℚ) * (thick_shell + thick_solvent)
  let r2 := r1 + thick_shell
  pi43 * r1 * r1 * r1 * sldi * j1c (r1 * q)
    - pi43 * r2 * r2 * r2 * sldi * j1c (r2 * q)

theorem mlv_loop_eq (j1c : ℚ → ℚ)
    (pi43 q ts tv sldi radius : ℚ) (n_pairs : ℕ) (hn : 1 ≤ n_pairs) :
    ∀ (fuel ii : ℕ) (fval voli : ℚ), ii ≤ n_pairs - 1 →
      n_pairs - 1 - ii ≤ fuel →
      mlv_loop j1c pi43 q ts tv sldi radius n_pairs fuel ii fval voli
        = (fval + ∑ i ∈ Finset.Ico ii n_pairs,
            mlvTerm j1c pi43 q ts tv sldi radius i,
           pi43 * (radius + ((n_pairs - 1 : ℕ) : ℚ) * (ts + tv) + ts)
             * (radius + ((n_pairs - 1 : ℕ) : ℚ) * (ts + tv) + ts)
             * (radius + ((n_pairs - 1 : ℕ) : ℚ) * (ts + tv) + ts)) := by
  intro fuel
  induction fuel with
  | zero =>
    intro ii fval voli hii hfuel
    have hlast : ii = n_pairs - 1 := by omega
    subst hlast
    have hIco : Finset.Ico (n_pairs - 1) n_pairs = {n_pairs - 1} := by
      rw [show n_pairs = (n_pairs - 1) + 1 by omega]
      simp
    simp only [mlv_loop, hIco, Finset.sum_singleton, mlvTerm]
    exact Prod.ext (by ring) (by ring)
  | succ fuel ih =>
    intro ii fval voli hii hfuel
    by_cases hcond : ii + 1 ≤ n_pairs - 1
    · simp only [mlv_loop]
      rw [if_pos hcond, ih (ii + 1) _ _ hcond (by omega)]
      have hsum : ∑ i ∈ Finset.Ico ii n_pairs,
          mlvTerm j1c pi43 q ts tv sldi radius i
        = mlvTerm j1c pi43 q ts tv sldi radius ii
          + ∑ i ∈ Finset.Ico (ii + 1) n_pairs,
            mlvTerm j1c pi43 q ts tv sldi radius i := by
        exact Finset.sum_eq_sum_Ico_succ_bot (by omega) _
      rw [hsum]
      simp only [mlvTerm]
      exact Prod.ext (by ring) (by ring)
    · simp only [mlv_loop]
      rw [if_neg hcond]
      have hlast : ii = n_pairs - 1 := by omega
      subst hlast
      have hIco : Finset.Ico (n_pairs - 1) n_pairs = {n_pairs - 1} := by
        rw [show n_pairs = (n_pairs - 1) + 1 by omega]
        simp
      simp only [hIco, Finset.sum_singleton, mlvTerm]
      exact Prod.ext (by ring) (by ring)

/-- Claim C9 (multilayer vesicle final scaling): for n_pairs >= 1,
multilayer_vesicle_kernel returns volfraction * 1e-4 * S^2 / voli, where S
is the alternating sum over the n_pairs shell pairs of
voli_layer * (sld_solvent - sld) * sph_j1c(ri * q), and voli at loop exit
is the volume pi43 * ro^3 of the outermost layer, with
ro = radius + n_pairs * thick_shell + (n_pairs - 1) * thick_solvent, the
radius reached after the final ri += thick_shell of the last pair. -/
theorem multilayer_vesicle_final_scaling (j1c : ℚ → ℚ)
    (pi43 q volfraction radius thick_shell thick_solvent
      sld_solvent sld : ℚ) (n_pairs : ℕ) (hn : 1 ≤ n_pairs) :
    multilayer_vesicle_kernel j1c pi43 q volfraction radius thick_shell
        thick_solvent sld_solvent sld n_pairs
      = volfraction * (1 / 10000)
        * (∑ i ∈ Finset.range n_pairs,
            mlvTerm j1c pi43 q thick_shell thick_solvent
              (sld_solvent - sld) radius i) ^ 2
        / (pi43 * (radius + (n_pairs : ℚ) * thick_shell
            + ((n_pairs : ℚ) - 1) * thick_solvent) ^ 3) := by
  simp only [multilayer_vesicle_kernel]
  rw [mlv_loop_eq j1c pi43 q thick_shell thick_solvent (sld_solvent - sld)
    radius n_pairs hn n_pairs 0 0 0 (by omega) (by omega)]
  simp only
  rw [← Finset.range_eq_Ico]
  have hro : radius + ((n_pairs - 1 : ℕ) : ℚ) * (thick_shell + thick_solvent)
      + thick_shell
    = radius + (n_pairs : ℚ) * thick_shell
      + ((n_pairs : ℚ) - 1) * thick_solvent := by
    have hcast : ((n_pairs - 1 : ℕ) : ℚ) = (n_pairs : ℚ) - 1 := by
      have : (1 : ℕ) ≤ n_pairs := hn
      push_cast [this]
      ring
    rw [hcast]
    ring
  rw [hro]
  rw [div_eq_mul_inv, div_eq_mul_inv]
  ring

/-- clip, kernel_iq.c lines 44-47: value restricted between low and high. -/
noncomputable def clip (value low high : ℝ) : ℝ :=
  if value < low then low else if value > high then high else value

/-- The radicand handed to the double square root for each spin
cross-section of set_spins (kernel_iq.c lines 59-62), after the clip of
lines 57-58: (1-i)(1-o), (1-i)o, i(1-o), io for dd, du, ud, uu. -/
noncomputable def spinRadicand (in_spin out_spin : ℝ) : ℕ → ℝ :=
  let i := clip in_spin 0 1
  let o := clip out_spin 0 1
  fun k =>
    match k with
    | 0 => (1 - i) * (1 - o)
    | 1 => (1 - i) * o
    | 2 => i * (1 - o)
    | _ => i * o

/-- set_spins, kernel_iq.c lines 55-63: clip both spin fractions to
[0, 1], then take the fourth root (sqrt of sqrt) of the four products. -/
noncomputable def set_spins (in_spin out_spin : ℝ) : ℕ → ℝ :=
  let i := clip in_spin 0 1
  let o := clip out_spin 0 1
  fun k =>
    match k with
    | 0 => Real.sqrt (Real.sqrt ((1 - i) * (1 - o)))
    | 1 => Real.sqrt (Real.sqrt ((1 - i) * o))
    | 2 => Real.sqrt (Real.sqrt (i * (1 - o)))
    | _ => Real.sqrt (Real.sqrt (i * o))

theorem clip_unit (x : ℝ) : 0 ≤ clip x 0 1 ∧ clip x 0 1 ≤ 1 := by
  unfold clip
  split_ifs with h1 h2
  · exact ⟨le_refl 0, by norm_num⟩
  · exact ⟨by norm_num, le_refl 1⟩
  · exact ⟨not_lt.mp h1, not_lt.mp h2⟩

/-- Claim C6 (spin cross-section weights): for every pair of inputs
(up_frac_i, up_frac_f), including values outside [0, 1], set_spins first
clamps both fractions to [0, 1] and then takes the fourth root of the
products (1-i)(1-f), (1-i)f, i(1-f), if for dd, du, ud, uu; because the
clamp precedes the fourth root, every radicand fed to the square roots is
nonnegative (so no NaN can arise) and every spins[k] lies in [0, 1]. -/
theorem set_spins_unit (in_spin out_spin : ℝ) (k : ℕ) :
    0 ≤ spinRadicand in_spin out_spin k
    ∧ spinRadicand in_spin out_spin k ≤ 1
    ∧ set_spins in_spin out_spin k
        = Real.sqrt (Real.sqrt (spinRadicand in_spin out_spin k))
    ∧ 0 ≤ set_spins in_spin out_spin k
    ∧ set_spins in_spin out_spin k ≤ 1 := by
  obtain ⟨hi0, hi1⟩ := clip_unit in_spin
  obtain ⟨ho0, ho1⟩ := clip_unit out_spin
  have hfacts : ∀ a b : ℝ, 0 ≤ a → a ≤ 1 → 0 ≤ b → b ≤ 1 →
      0 ≤ a * b ∧ a * b ≤ 1
        ∧ 0 ≤ Real.sqrt (Real.sqrt (a * b))
        ∧ Real.sqrt (Real.sqrt (a * b)) ≤ 1 := by
    intro a b ha0 ha1 hb0 hb1
    have hab0 : 0 ≤ a * b := mul_nonneg ha0 hb0
    have hab1 : a * b ≤ 1 := mul_le_one₀ ha1 hb0 hb1
    refine ⟨hab0, hab1, Real.sqrt_nonneg _, ?_⟩
    exact Real.sqrt_le_one.mpr (Real.sqrt_le_one.mpr hab1)
  have hii : (0 : ℝ) ≤ 1 - clip in_spin 0 1 := by linarith
  have hii1 : 1 - clip in_spin 0 1 ≤ 1 := by linarith
  have hoo : (0 : ℝ) ≤ 1 - clip out_spin 0 1 := by linarith
  have hoo1 : 1 - clip out_spin 0 1 ≤ 1 := by linarith
  match k with
  | 0 =>
    obtain ⟨h1, h2, h3, h4⟩ := hfacts _ _ hii hii1 hoo hoo1
    exact ⟨h1, h2, rfl, h3, h4⟩
  | 1 =>
    obtain ⟨h1, h2, h3, h4⟩ := hfacts _ _ hii hii1 ho0 ho1
    exact ⟨h1, h2, rfl, h3, h4⟩
  | 2 =>
    obtain ⟨h1, h2, h3, h4⟩ := hfacts _ _ hi0 hi1 hoo hoo1
    exact ⟨h1, h2, rfl, h3, h4⟩
  | (n + 3) =>
    obtain ⟨h1, h2, h3, h4⟩ := hfacts _ _ hi0 hi1 ho0 ho1
    exact ⟨h1, h2, rfl, h3, h4⟩

/-- Degrees-to-radians factor, kernel_iq.c uses M_PI_180. -/
noncomputable def M_PI_180 : ℝ := Real.pi / 180

/-- The jittered qc of the oriented-symmetric view_direct, kernel_iq.c
lines 96-105: reverse view through the mean angles (theta, phi), then
reverse jitter through the table angles (jtheta, jphi). -/
noncomputable def view_direct_dqc (qx qy theta phi jtheta jphi : ℝ) : ℝ :=
  let sin_theta := Real.sin (theta * M_PI_180)
  let cos_theta := Real.cos (theta * M_PI_180)
  let sin_phi := Real.sin (phi * M_PI_180)
  let cos_phi := Real.cos (phi * M_PI_180)
  let qa := qx * cos_phi * cos_theta + qy * sin_phi * cos_theta
  let qb := -qx * sin_phi + qy * cos_phi
  let qc := qx * sin_theta * cos_phi + qy * sin_phi * sin_theta
  let sin_jt := Real.sin (jtheta * M_PI_180)
  let cos_jt := Real.cos (jtheta * M_PI_180)
  let sin_jp := Real.sin (jphi * M_PI_180)
  let cos_jp := Real.cos (jphi * M_PI_180)
  qa * sin_jt - qb * sin_jp * cos_jt + qc * cos_jp * cos_jt

/-- The radicand of line 108, dqa = sqrt(-dqc*dqc + qx*qx + qy*qy): the
source takes the square root of this expression directly, without any
clamp. -/
noncomputable def view_direct_radicand (qx qy theta phi jtheta jphi : ℝ) : ℝ :=
  -(view_direct_dqc qx qy theta phi jtheta jphi)
    * view_direct_dqc qx qy theta phi jtheta jphi + qx * qx + qy * qy

/-- In exact arithmetic the radicand of the symmetric orientation path is
never negative: dqc^2 <= qx^2 + qy^2 because (qa, qb, qc) has the norm of
(qx, qy) and the jitter coefficients form a unit vector.  Only rounding
can make the C expression negative; the C source contains no clamp. -/
theorem view_direct_radicand_nonneg (qx qy theta phi jtheta jphi : ℝ) :
    0 ≤ view_direct_radicand qx qy theta phi jtheta jphi := by
  unfold view_direct_radicand view_direct_dqc
  simp only
  set st := Real.sin (theta * M_PI_180) with hst_def
  set ct := Real.cos (theta * M_PI_180) with hct_def
  set sp := Real.sin (phi * M_PI_180) with hsp_def
  set cp := Real.cos (phi * M_PI_180) with hcp_def
  set sjt := Real.sin (jtheta * M_PI_180) with hsjt_def
  set cjt := Real.cos (jtheta * M_PI_180) with hcjt_def
  set sjp := Real.sin (jphi * M_PI_180) with hsjp_def
  set cjp := Real.cos (jphi * M_PI_180) with hcjp_def
  have hm : st ^ 2 + ct ^ 2 = 1 := Real.sin_sq_add_cos_sq _
  have hp : sp ^ 2 + cp ^ 2 = 1 := Real.sin_sq_add_cos_sq _
  have hjt : sjt ^ 2 + cjt ^ 2 = 1 := Real.sin_sq_add_cos_sq _
  have hjp : sjp ^ 2 + cjp ^ 2 = 1 := Real.sin_sq_add_cos_sq _
  set qa := qx * cp * ct + qy * sp * ct with hqa_def
  set qb := -qx * sp + qy * cp with hqb_def
  set qc := qx * st * cp + qy * sp * st with hqc_def
  have hq : qa ^ 2 + qb ^ 2 + qc ^ 2 = qx ^ 2 + qy ^ 2 := by
    rw [hqa_def, hqb_def, hqc_def]
    linear_combination ((qx * cp + qy * sp) ^ 2) * hm + (qx ^ 2 + qy ^ 2) * hp
  have hunit : sjt ^ 2 + (-(sjp * cjt)) ^ 2 + (cjp * cjt) ^ 2 = 1 := by
    linear_combination (cjt ^ 2) * hjp + hjt
  have hCS : (qa * sjt + qb * (-(sjp * cjt)) + qc * (cjp * cjt)) ^ 2
      ≤ (sjt ^ 2 + (-(sjp * cjt)) ^ 2 + (cjp * cjt) ^ 2)
        * (qa ^ 2 + qb ^ 2 + qc ^ 2) := by
    nlinarith [sq_nonneg (qa * (-(sjp * cjt)) - qb * sjt),
      sq_nonneg (qa * (cjp * cjt) - qc * sjt),
      sq_nonneg (qb * (cjp * cjt) - qc * (-(sjp * cjt)))]
  rw [hunit, one_mul, hq] at hCS
  nlinarith [hCS]

/-- Concrete fixtures for the witness instances below. -/
def wModel : Model := ⟨fun _ pars => pars.getD 0 0, fun _ => 1, fun _ => false⟩

def wDimA : PdDim := ⟨0, 2, fun i => (i : ℚ), fun _ => 1⟩

def wDimB : PdDim := ⟨1, 2, fun i => (i : ℚ), fun _ => 1/2⟩

def wDimC : PdDim := ⟨0, 3, fun i => (i : ℚ), fun _ => 1⟩

def wDimW : PdDim := ⟨0, 2, fun i => (i : ℚ), fun i => (i : ℚ) + 1⟩

theorem resumability_partition_witness :
    (∀ d ∈ [wDimC], 0 < d.length)
    ∧ List.Chain' (· < ·) [0, 1, 3]
    ∧ ([0, 1, 3] : List ℕ).head? = some 0
    ∧ ([0, 1, 3] : List ℕ).getLast? = some (numPoints [wDimC])
    ∧ runSlices wModel 2 [wDimC] [9] (fun _ => 1) 0 [0, 1, 3] (fun _ => 5)
      = KERNEL_NAME wModel 2 0 (numPoints [wDimC]) [wDimC] [9] (fun _ => 1)
        (fun _ => 5) 0 :=
  ⟨by decide, by simp [List.chain'_cons], by decide, by decide,
    resumability_partition wModel 2 [wDimC] [9] (fun _ => 1) (fun _ => 5) 0
      [0, 1, 3] (by decide) (by simp [List.chain'_cons]) (by decide)
      (by decide)⟩

theorem hypercube_enumeration_witness :
    (∀ d ∈ [wDimA, wDimB], 0 < d.length)
    ∧ (([wDimA, wDimB].map PdDim.par).Nodup)
    ∧ (∀ d ∈ [wDimA, wDimB], d.par < ([5, 7] : List ℚ).length)
    ∧ 1 < 3 ∧ 3 ≤ numPoints [wDimA, wDimB]
    ∧ nestTrace 3 [wDimA, wDimB] 1 [5, 7]
      = (List.range' 1 (3 - 1)).map (fun t =>
          (parsAt [wDimA, wDimB] t [5, 7], weightAt [wDimA, wDimB] t)) :=
  ⟨by decide, by decide, by decide, by decide, by decide,
    (hypercube_enumeration [wDimA, wDimB] [5, 7] 1 3 (by decide) (by decide)
      (by decide) (by decide) (by decide)).1⟩

theorem skip_policy_witness :
    (∀ d ∈ [wDimW], 0 < d.length)
    ∧ (0 : ℕ) < 2 ∧ (2 : ℕ) ≤ numPoints [wDimW]
    ∧ weightAt [wDimW] 1
      = ∏ j ∈ Finset.range ([wDimW] : List PdDim).length,
          (([wDimW] : List PdDim).getD j default).weights
            (1 / strideAt [wDimW] j
              % (([wDimW] : List PdDim).getD j default).length) :=
  ⟨by decide, by decide, by decide,
    (@skip_policy wModel 1 0 2 [wDimW] [4] (fun _ => 1) (fun _ => 8) 0
      (by decide) (by decide) (by decide)).2 1⟩

theorem e2_end_to_end_witness :
    (0 : ℚ) < 1/4
    ∧ ((∀ k, k < 1 →
        KERNEL_NAME e2Model 1 0 3 [e2Dim] [7] (fun _ => 3) (fun _ => 9) 0 k = 2)
      ∧ KERNEL_NAME e2Model 1 0 3 [e2Dim] [7] (fun _ => 3) (fun _ => 9) 0 1 = 1) :=
  ⟨by norm_num, e2_end_to_end 1 (fun _ => 3) (fun _ => 9) 0 7 (by norm_num)⟩

theorem weight_linearity_witness :
    (∀ d ∈ [wDimW], 0 < d.length)
    ∧ 1 ≤ ([wDimW] : List PdDim).length ∧ (0 : ℚ) < 2
    ∧ KERNEL_NAME wModel 1 0 (numPoints [wDimW]) (scaleActive 2 1 [wDimW])
        [6] (fun _ => 1) (fun _ => 2) (2 ^ 1 * 0) 1
      = 2 ^ 1 * KERNEL_NAME wModel 1 0 (numPoints [wDimW]) [wDimW]
        [6] (fun _ => 1) (fun _ => 2) 0 1 :=
  ⟨by decide, by decide, by decide,
    (weight_linearity wModel 1 [wDimW] [6] (fun _ => 1) (fun _ => 2) 0 2 1
      (by decide) (by decide) (by decide)).2.1⟩

theorem magnetic_zero_q_witness :
    magScattering 0 0 (fun _ => 1) 0 1 (fun _ => 2) [(5, 0)]
        (fun p => p.getD 0 0) [3] = 0
    ∧ magScattering 1 0 (fun _ => 1) 0 1 (fun _ => 2) [(5, 0)]
        (fun p => p.getD 0 0) [3]
      = (((List.range 4).filter
            (fun index => 1 / 10 ^ 8 < (fun _ => (1 : ℚ)) index)).map
          (spinContrib 1 0 0 1 (fun _ => 2) [(5, 0)]
            (fun p => p.getD 0 0) [3] (fun _ => 1))).sum :=
  ⟨(magnetic_zero_q 0 0 (fun _ => 1) 0 1 (fun _ => 2) [(5, 0)]
      (fun p => p.getD 0 0) [3]).1 (by norm_num),
   (magnetic_zero_q 1 0 (fun _ => 1) 0 1 (fun _ => 2) [(5, 0)]
      (fun p => p.getD 0 0) [3]).2 (by norm_num)⟩

theorem multilayer_vesicle_final_scaling_witness :
    1 ≤ 2
    ∧ multilayer_vesicle_kernel (fun x => x) 3 1 1 10 2 1 6 4 2
      = 1 * (1 / 10000)
        * (∑ i ∈ Finset.range 2,
            mlvTerm (fun x => x) 3 1 2 1 (6 - 4) 10 i) ^ 2
        / (3 * (10 + (2 : ℚ) * 2 + ((2 : ℚ) - 1) * 1) ^ 3) :=
  ⟨by decide,
   multilayer_vesicle_final_scaling (fun x => x) 3 1 1 10 2 1 6 4 2 (by decide)⟩

theorem empty_slice_still_evaluates_witness :
    (∀ d ∈ [wDimA], 0 < d.length)
    ∧ 0 < ([wDimA] : List PdDim).length ∧ 1 < numPoints [wDimA]
    ∧ KERNEL_NAME wModel 1 1 1 [wDimA] [4] (fun _ => 1) (fun _ => 8) 0
      = KERNEL_NAME wModel 1 1 (1 + 1) [wDimA] [4] (fun _ => 1) (fun _ => 8) 0 :=
  ⟨by decide, by decide, by decide,
    (empty_slice_still_evaluates wModel 1 1 [wDimA] [4] (fun _ => 1)
      (fun _ => 8) 0 (by decide) (by decide) (by decide)).2⟩

end Sas
